import Mathlib

set_option maxRecDepth 8000

/-!
Shallow embedding of the `randstream` deterministic parallel stream engine
(`src/generate.rs`, `src/validate.rs`, `src/lib.rs`) together with the parts
of its dependencies that the engine's correctness rests on: the CRC-32
hasher of the `crc32fast` crate (bitwise reflected CRC-32/IEEE, plus the
zlib-style GF(2)-matrix checksum combination), and the `Pcg64Mcg` generator
of `rand_pcg` (128-bit MCG with XSL-RR output and multiplicative jump-ahead),
seeded through `rand_core`'s `seed_from_u64`.

Machine integers are modelled as `Nat` with explicit `% 2^w` where the Rust
code relies on wrapping; byte buffers are `List Nat` with entries below 256.
-/

/-! ## CRC-32 core (crc32fast, reflected CRC-32/IEEE) -/

/-- Reflected CRC-32/IEEE polynomial, as in `crc32fast` and zlib. -/
def crcPoly : Nat := 0xEDB88320

/-- The all-ones 32-bit word used as CRC init/xorout value. -/
def crcF : Nat := 0xFFFFFFFF

/-- One shift round of the reflected CRC: divide by x modulo the polynomial. -/
def crcShift (s : Nat) : Nat := if s % 2 = 1 then s / 2 ^^^ crcPoly else s / 2

/-- Absorb one input byte into the raw CRC state: xor it in, then run eight
shift rounds.  This is the bitwise form of the table lookups in `crc32fast`. -/
def crcByteStep (s b : Nat) : Nat := crcShift^[8] (s ^^^ b)

/-- Raw CRC state after absorbing a byte list. -/
def crcRawUpdate (s : Nat) (bs : List Nat) : Nat := bs.foldl crcByteStep s

/-- Continue a finalized CRC value `c` over further bytes.  `crc32fast`
stores the finalized value at all times: its update functions complement the
state on entry and exit. -/
def crc32Update (c : Nat) (bs : List Nat) : Nat := crcRawUpdate (c ^^^ crcF) bs ^^^ crcF

/-- CRC-32 of a byte list (init `0xFFFFFFFF`, xorout `0xFFFFFFFF`). -/
def crc32 (bs : List Nat) : Nat := crc32Update 0 bs

/-! ## GF(2) matrix machinery of `crc32fast::combine` (zlib `crc32_combine`) -/

/-- `gf2_matrix_times`: apply a column matrix to a bit vector; column `n` is
xored in whenever bit `n` of the vector is set. -/
def gf2Times : List Nat → Nat → Nat
  | [], _ => 0
  | m :: ms, v => (if v % 2 = 1 then m else 0) ^^^ gf2Times ms (v / 2)

/-- `gf2_matrix_square`: square a matrix by applying it to each of its own
columns. -/
def gf2Square (m : List Nat) : List Nat := m.map (gf2Times m)

/-- Columns `1, 2, 4, ...` written by the `row <<= 1` initialization loop. -/
def gf2PowCols (row : Nat) : Nat → List Nat
  | 0 => []
  | k + 1 => row :: gf2PowCols (2 * row) k

/-- The initial `odd` matrix: the operator for one zero bit (`odd[0]` is the
polynomial, `odd[n] = 1 << (n-1)` for `n = 1..31`). -/
def gf2OddInit : List Nat := crcPoly :: gf2PowCols 1 31

/-- The squaring loop of `crc32_combine`: on entry the matrix is the operator
for four zero bits; each half-iteration squares it and applies it to `crc1`
when the corresponding bit of `len2` is set. -/
def combineLoop (odd : List Nat) (crc1 len2 : Nat) : Nat :=
  if h : len2 = 0 then crc1
  else
    let even := gf2Square odd
    let c := if len2 % 2 = 1 then gf2Times even crc1 else crc1
    combineLoop even c (len2 / 2)
termination_by len2
decreasing_by exact Nat.div_lt_self (Nat.pos_of_ne_zero h) (by omega)

/-- `crc32_combine (crc1, crc2, len2)`: append `len2` zero bytes to `crc1`
via matrix exponentiation, then xor `crc2`.  `len2 = 0` returns `crc1`. -/
def combineCrc (crc1 crc2 len2 : Nat) : Nat :=
  if len2 = 0 then crc1
  else combineLoop (gf2Square (gf2Square gf2OddInit)) crc1 len2 ^^^ crc2

/-! ## The `crc32fast::Hasher` interface used by generate/validate -/

/-- `crc32fast::Hasher`: a finalized-form CRC value plus the byte count. -/
structure Hasher where
  crc : Nat
  amount : Nat
deriving DecidableEq, Repr

/-- `Hasher::new()`. -/
def Hasher.new : Hasher := ⟨0, 0⟩

/-- `Hasher::update`. -/
def Hasher.update (h : Hasher) (bs : List Nat) : Hasher :=
  ⟨crc32Update h.crc bs, h.amount + bs.length⟩

/-- `Hasher::finalize`. -/
def Hasher.finalize (h : Hasher) : Nat := h.crc

/-- `Hasher::combine`: merge the hash state `other` into `self` using
`crc32_combine` with `other`'s finalized value and byte count. -/
def Hasher.combine (h other : Hasher) : Hasher :=
  ⟨combineCrc h.crc other.crc other.amount, h.amount + other.amount⟩

/-! ## XOR toolkit -/

theorem xor_mod_two (a b : Nat) : (a ^^^ b) % 2 = a % 2 ^^^ b % 2 := by
  rw [← Nat.and_one_is_mod, ← Nat.and_one_is_mod, ← Nat.and_one_is_mod,
    Nat.and_xor_distrib_right]

theorem xor_div_two (a b : Nat) : (a ^^^ b) / 2 = a / 2 ^^^ b / 2 := by
  apply Nat.eq_of_testBit_eq
  intro i
  simp [Nat.testBit_div_two, Nat.testBit_xor]

theorem xor_pair_cancel (p x y : Nat) : (x ^^^ p) ^^^ (y ^^^ p) = x ^^^ y := by
  apply Nat.eq_of_testBit_eq
  intro i
  simp only [Nat.testBit_xor]
  cases x.testBit i <;> cases y.testBit i <;> cases p.testBit i <;> rfl

theorem xor_rotate (a b c : Nat) : (a ^^^ b) ^^^ c = (a ^^^ c) ^^^ b := by
  apply Nat.eq_of_testBit_eq
  intro i
  simp only [Nat.testBit_xor]
  cases a.testBit i <;> cases b.testBit i <;> cases c.testBit i <;> rfl

/-! ## Linearity of the CRC step over XOR -/

theorem crcShift_xor (a b : Nat) : crcShift (a ^^^ b) = crcShift a ^^^ crcShift b := by
  unfold crcShift
  rw [xor_mod_two a b, xor_div_two a b]
  rcases Nat.mod_two_eq_zero_or_one a with ha | ha <;>
    rcases Nat.mod_two_eq_zero_or_one b with hb | hb <;> rw [ha, hb] <;> norm_num
  · exact Nat.xor_assoc (a / 2) (b / 2) crcPoly
  · exact xor_rotate (a / 2) (b / 2) crcPoly
  · exact (xor_pair_cancel crcPoly (a / 2) (b / 2)).symm

theorem crcShift_zero : crcShift 0 = 0 := by decide

theorem crcShift_iter_xor (k a b : Nat) :
    crcShift^[k] (a ^^^ b) = crcShift^[k] a ^^^ crcShift^[k] b := by
  induction k generalizing a b with
  | zero => rfl
  | succ k ih => rw [Function.iterate_succ_apply, Function.iterate_succ_apply,
      Function.iterate_succ_apply, crcShift_xor, ih]

theorem crcShift_iter_zero (k : Nat) : crcShift^[k] 0 = 0 := by
  induction k with
  | zero => rfl
  | succ k ih => rw [Function.iterate_succ_apply, crcShift_zero, ih]

theorem crcShift_lt (s : Nat) (h : s < 2 ^ 32) : crcShift s < 2 ^ 32 := by
  unfold crcShift
  have h2 : s / 2 < 2 ^ 32 := lt_of_le_of_lt (Nat.div_le_self s 2) h
  split
  · exact Nat.xor_lt_two_pow h2 (by norm_num [crcPoly])
  · exact h2

theorem crcShift_iter_lt (k s : Nat) (h : s < 2 ^ 32) : crcShift^[k] s < 2 ^ 32 := by
  induction k generalizing s with
  | zero => exact h
  | succ k ih => rw [Function.iterate_succ_apply]; exact ih _ (crcShift_lt s h)

/-! ## Correctness of the GF(2) matrix combine -/

theorem gf2Times_zero (m : List Nat) : gf2Times m 0 = 0 := by
  induction m with
  | nil => rfl
  | cons c ms ih => simp [gf2Times, ih]

theorem xor_left_comm (a b c : Nat) : a ^^^ (b ^^^ c) = b ^^^ (a ^^^ c) := by
  apply Nat.eq_of_testBit_eq
  intro i
  simp only [Nat.testBit_xor]
  cases a.testBit i <;> cases b.testBit i <;> cases c.testBit i <;> rfl

theorem xor_pair_cancel_left (p x y : Nat) : (p ^^^ x) ^^^ (p ^^^ y) = x ^^^ y := by
  apply Nat.eq_of_testBit_eq
  intro i
  simp only [Nat.testBit_xor]
  cases x.testBit i <;> cases y.testBit i <;> cases p.testBit i <;> rfl

theorem gf2Times_xor (m : List Nat) (a b : Nat) :
    gf2Times m (a ^^^ b) = gf2Times m a ^^^ gf2Times m b := by
  induction m generalizing a b with
  | nil => simp [gf2Times]
  | cons c ms ih =>
    simp only [gf2Times, xor_mod_two, xor_div_two, ih]
    rcases Nat.mod_two_eq_zero_or_one a with ha | ha <;>
      rcases Nat.mod_two_eq_zero_or_one b with hb | hb <;> rw [ha, hb] <;> norm_num
    · exact xor_left_comm c (gf2Times ms (a / 2)) (gf2Times ms (b / 2))
    · exact (Nat.xor_assoc c (gf2Times ms (a / 2)) (gf2Times ms (b / 2))).symm
    · exact (xor_pair_cancel_left c (gf2Times ms (a / 2)) (gf2Times ms (b / 2))).symm

theorem gf2Times_map (f : Nat → Nat) (hf0 : f 0 = 0)
    (hfx : ∀ a b : Nat, f (a ^^^ b) = f a ^^^ f b) (l : List Nat) (v : Nat) :
    gf2Times (l.map f) v = f (gf2Times l v) := by
  induction l generalizing v with
  | nil => simp [gf2Times, hf0]
  | cons c ms ih =>
    simp only [List.map_cons, gf2Times, ih, hfx]
    congr 1
    split <;> simp [hf0]

theorem gf2Square_times (m : List Nat) (v : Nat) :
    gf2Times (gf2Square m) v = gf2Times m (gf2Times m v) :=
  gf2Times_map (gf2Times m) (gf2Times_zero m) (gf2Times_xor m) m v

theorem gf2Times_lt (m : List Nat) (hm : ∀ c ∈ m, c < 2 ^ 32) (v : Nat) :
    gf2Times m v < 2 ^ 32 := by
  induction m generalizing v with
  | nil => simp [gf2Times]
  | cons c ms ih =>
    simp only [gf2Times]
    refine Nat.xor_lt_two_pow ?_ (ih (fun d hd => hm d (List.mem_cons_of_mem c hd)) (v / 2))
    split
    · exact hm c (List.mem_cons_self c ms)
    · positivity

theorem xor_disjoint_add (m a c : Nat) (h : a < 2 ^ m) : a ^^^ c * 2 ^ m = a + c * 2 ^ m := by
  induction m generalizing a c with
  | zero =>
    have : a = 0 := by omega
    simp [this]
  | succ m ih =>
    have hp : (2:Nat) ^ (m + 1) = 2 * 2 ^ m := by ring
    have h2 : a / 2 < 2 ^ m := by omega
    have hm2 : (a ^^^ c * 2 ^ (m + 1)) % 2 = a % 2 := by
      rw [xor_mod_two]
      have hz : c * 2 ^ (m + 1) % 2 = 0 := by
        have hc2 : c * 2 ^ (m + 1) = c * 2 ^ m * 2 := by ring
        rw [hc2, Nat.mul_mod_left]
      rw [hz, Nat.xor_zero]
    have hd2 : (a ^^^ c * 2 ^ (m + 1)) / 2 = a / 2 ^^^ c * 2 ^ m := by
      rw [xor_div_two]
      congr 1
      have hc2 : c * 2 ^ (m + 1) = c * 2 ^ m * 2 := by ring
      rw [hc2]
      omega
    have hpc : c * 2 ^ (m + 1) = 2 * (c * 2 ^ m) := by ring
    have hk := Nat.div_add_mod (a ^^^ c * 2 ^ (m + 1)) 2
    rw [hm2, hd2, ih _ _ h2] at hk
    omega

theorem mod_two_pow_succ (w k : Nat) : w % 2 ^ (k + 1) = 2 * (w / 2 % 2 ^ k) + w % 2 := by
  have hp : (2:Nat) ^ (k + 1) = 2 * 2 ^ k := by ring
  rw [hp, Nat.mod_mul]
  omega

theorem gf2PowCols_times (k j w : Nat) :
    gf2Times (gf2PowCols (2 ^ j) k) w = w % 2 ^ k * 2 ^ j := by
  induction k generalizing j w with
  | zero => simp [gf2PowCols, gf2Times, Nat.mod_one]
  | succ k ih =>
    have h2 : (2 : Nat) * 2 ^ j = 2 ^ (j + 1) := by ring
    simp only [gf2PowCols, gf2Times, h2, ih]
    rw [mod_two_pow_succ]
    rcases Nat.mod_two_eq_zero_or_one w with hw | hw <;> rw [hw] <;> norm_num
    · ring
    · rw [xor_disjoint_add (j + 1) (2 ^ j) (w / 2 % 2 ^ k) (by
        have hl : (2:Nat) ^ (j + 1) = 2 * 2 ^ j := by ring
        have hpos : (0:Nat) < 2 ^ j := by positivity
        omega)]
      have hl : (2:Nat) ^ (j + 1) = 2 * 2 ^ j := by ring
      rw [hl]
      ring

/-- Invariant carried through the squaring loop: all columns are 32-bit words
and the matrix acts on 32-bit values as `j` CRC shift rounds. -/
def MatGood (m : List Nat) (j : Nat) : Prop :=
  (∀ c ∈ m, c < 2 ^ 32) ∧ ∀ v : Nat, v < 2 ^ 32 → gf2Times m v = crcShift^[j] v

theorem matGood_square {m : List Nat} {j : Nat} (h : MatGood m j) :
    MatGood (gf2Square m) (j + j) := by
  obtain ⟨hb, hs⟩ := h
  constructor
  · intro c hc
    obtain ⟨d, _, rfl⟩ := List.mem_map.mp hc
    exact gf2Times_lt m hb d
  · intro v hv
    rw [gf2Square_times, hs v hv, hs _ (crcShift_iter_lt j v hv),
      ← Function.iterate_add_apply]

theorem gf2OddInit_bounds : ∀ c ∈ gf2OddInit, c < 2 ^ 32 := by decide

theorem gf2Times_cons (c : Nat) (ms : List Nat) (v : Nat) :
    gf2Times (c :: ms) v = (if v % 2 = 1 then c else 0) ^^^ gf2Times ms (v / 2) := rfl

theorem gf2OddInit_times (v : Nat) (hv : v < 2 ^ 32) :
    gf2Times gf2OddInit v = crcShift v := by
  have hcols : gf2Times (gf2PowCols 1 31) (v / 2) = v / 2 % 2 ^ 31 := by
    have h := gf2PowCols_times 31 0 (v / 2)
    simpa using h
  have h2 : v / 2 % 2 ^ 31 = v / 2 := by
    apply Nat.mod_eq_of_lt
    have hl : (2:Nat) ^ 32 = 2 * 2 ^ 31 := by ring
    omega
  rw [gf2OddInit, gf2Times_cons, hcols, h2]
  unfold crcShift
  rcases Nat.mod_two_eq_zero_or_one v with hw | hw <;> rw [hw] <;> norm_num
  exact Nat.xor_comm crcPoly (v / 2)

theorem gf2OddInit_good : MatGood gf2OddInit 1 :=
  ⟨gf2OddInit_bounds, fun v hv => by rw [gf2OddInit_times v hv]; simp⟩

theorem combineLoop_eq (len2 : Nat) : ∀ (odd : List Nat) (j c : Nat), MatGood odd j →
    c < 2 ^ 32 → combineLoop odd c len2 = crcShift^[2 * j * len2] c := by
  induction len2 using Nat.strong_induction_on with
  | _ len2 ih =>
    intro odd j c hm hc
    unfold combineLoop
    split
    · next h => subst h; simp
    · next h =>
      show combineLoop (gf2Square odd)
          (if len2 % 2 = 1 then gf2Times (gf2Square odd) c else c) (len2 / 2) = _
      have hev := matGood_square hm
      have hdiv : len2 / 2 < len2 := Nat.div_lt_self (Nat.pos_of_ne_zero h) (by omega)
      rcases Nat.mod_two_eq_zero_or_one len2 with hb | hb
      · rw [if_neg (by omega)]
        rw [ih (len2 / 2) hdiv (gf2Square odd) (j + j) c hev hc]
        congr 1
        conv_rhs => rw [← Nat.div_add_mod len2 2, hb]
        ring
      · rw [if_pos hb]
        rw [hev.2 c hc]
        rw [ih (len2 / 2) hdiv (gf2Square odd) (j + j) _ hev (crcShift_iter_lt _ _ hc)]
        rw [← Function.iterate_add_apply]
        congr 1
        conv_rhs => rw [← Nat.div_add_mod len2 2, hb]
        ring

theorem combineCrc_spec (c1 c2 len2 : Nat) (hc : c1 < 2 ^ 32) :
    combineCrc c1 c2 len2 = if len2 = 0 then c1 else crcShift^[8 * len2] c1 ^^^ c2 := by
  unfold combineCrc
  split
  · rfl
  · have h4 : MatGood (gf2Square (gf2Square gf2OddInit)) 4 :=
      matGood_square (matGood_square gf2OddInit_good)
    rw [combineLoop_eq len2 _ 4 c1 h4 hc]

/-! ## Affine decomposition of the CRC and combine correctness -/

theorem crcByteStep_xor_left (s t b : Nat) :
    crcByteStep (s ^^^ t) b = crcShift^[8] s ^^^ crcByteStep t b := by
  unfold crcByteStep
  rw [Nat.xor_assoc, crcShift_iter_xor]

theorem crcRawUpdate_xor_left (s t : Nat) (bs : List Nat) :
    crcRawUpdate (s ^^^ t) bs = crcShift^[8 * bs.length] s ^^^ crcRawUpdate t bs := by
  induction bs generalizing s t with
  | nil => simp [crcRawUpdate]
  | cons b bs ih =>
    show crcRawUpdate (crcByteStep (s ^^^ t) b) bs
        = crcShift^[8 * (b :: bs).length] s ^^^ crcRawUpdate (crcByteStep t b) bs
    rw [crcByteStep_xor_left, ih, ← Function.iterate_add_apply]
    congr 2

theorem xor_xor_self (a b : Nat) : a ^^^ b ^^^ b = a := by
  rw [Nat.xor_assoc, Nat.xor_self, Nat.xor_zero]

/-- Core checksum-merge correctness: combining a finalized CRC `c` with the
independently computed CRC of `bs` over length `bs.length` equals continuing
the CRC of `c`'s stream over `bs`. -/
theorem combineCrc_correct (c : Nat) (hc : c < 2 ^ 32) (bs : List Nat) :
    combineCrc c (crc32Update 0 bs) bs.length = crc32Update c bs := by
  rw [combineCrc_spec _ _ _ hc]
  split
  · next h =>
    obtain rfl : bs = [] := List.length_eq_zero.mp h
    simp [crc32Update, crcRawUpdate, xor_xor_self]
  · next h =>
    unfold crc32Update
    rw [Nat.zero_xor, crcRawUpdate_xor_left c crcF bs, Nat.xor_assoc]

/-! ## Bounds and Hasher-level lemmas -/

theorem crcRawUpdate_lt (s : Nat) (bs : List Nat) (hs : s < 2 ^ 32)
    (hb : ∀ b ∈ bs, b < 2 ^ 32) : crcRawUpdate s bs < 2 ^ 32 := by
  induction bs generalizing s with
  | nil => exact hs
  | cons b bs ih =>
    show crcRawUpdate (crcByteStep s b) bs < 2 ^ 32
    refine ih _ ?_ (fun d hd => hb d (List.mem_cons_of_mem b hd))
    exact crcShift_iter_lt 8 _ (Nat.xor_lt_two_pow hs (hb b (List.mem_cons_self b bs)))

theorem crc32Update_lt (c : Nat) (bs : List Nat) (hc : c < 2 ^ 32)
    (hb : ∀ b ∈ bs, b < 2 ^ 32) : crc32Update c bs < 2 ^ 32 := by
  unfold crc32Update
  refine Nat.xor_lt_two_pow ?_ (by norm_num [crcF])
  exact crcRawUpdate_lt _ bs (Nat.xor_lt_two_pow hc (by norm_num [crcF])) hb

theorem crc32Update_append (c : Nat) (a b : List Nat) :
    crc32Update (crc32Update c a) b = crc32Update c (a ++ b) := by
  unfold crc32Update crcRawUpdate
  rw [xor_xor_self, List.foldl_append]

theorem Hasher.update_update (h : Hasher) (a b : List Nat) :
    (h.update a).update b = h.update (a ++ b) := by
  simp [Hasher.update, crc32Update_append, List.length_append, Nat.add_assoc]

theorem Hasher.combine_update_new (h : Hasher) (hc : h.crc < 2 ^ 32) (bs : List Nat) :
    h.combine (Hasher.new.update bs) = h.update bs := by
  simp [Hasher.combine, Hasher.update, Hasher.new]
  exact combineCrc_correct h.crc hc bs

theorem Hasher.combine_new_right (h : Hasher) : h.combine Hasher.new = h := by
  simp [Hasher.combine, Hasher.new, combineCrc]

/-! ## u64 helper -/

/-- `u64::div_ceil`.  Rust panics on a zero divisor; the two call sites that
can be reached with a zero divisor are modelled explicitly by `generatePlan`
below, which checks the divisor before using this total function. -/
def divCeil (a b : Nat) : Nat := (a + b - 1) / b

/-! ## Pcg64Mcg (rand_pcg): 128-bit MCG with XSL-RR output -/

/-- The `Pcg64Mcg` multiplier. -/
def pcgMult : Nat := 0x2360ed051fc65da44385df649fccf645

/-- 128-bit wrapping modulus of the MCG state. -/
def pcgMod : Nat := 2 ^ 128

/-- State transition of `next_u64`: wrapping multiply by the multiplier. -/
def pcgNext (s : Nat) : Nat := s * pcgMult % pcgMod

/-- `u64::rotate_right`. -/
def rotr64 (x r : Nat) : Nat := x / 2 ^ (r % 64) + x % 2 ^ (r % 64) * 2 ^ (64 - r % 64)

/-- XSL-RR output function: xor of the two state halves, rotated right by
the top six bits of the state. -/
def pcgOutput (s : Nat) : Nat := rotr64 (s / 2 ^ 64 ^^^ s % 2 ^ 64) (s / 2 ^ 122)

/-- `Pcg64Mcg::advance (d)`: jump the state `d` multiplicative steps ahead;
`rand_pcg` computes `mult^d` by binary exponentiation. -/
def pcgAdvance (s d : Nat) : Nat := s * pcgMult ^ d % pcgMod

/-- One step of the PCG32 generator that `rand_core`'s default
`seed_from_u64` uses to expand a 64-bit seed into seed bytes. -/
def seedStep (s : Nat) : Nat := (s * 6364136223846793005 + 11634580027462260723) % 2 ^ 64

/-- `u32::rotate_right`. -/
def rotr32 (x r : Nat) : Nat := x / 2 ^ (r % 32) + x % 2 ^ (r % 32) * 2 ^ (32 - r % 32)

/-- PCG32 (XSH-RR) output function used by `seed_from_u64`. -/
def seedOut (s : Nat) : Nat := rotr32 ((s / 2 ^ 18 ^^^ s) / 2 ^ 27 % 2 ^ 32) (s / 2 ^ 59)

/-- `Pcg64Mcg::seed_from_u64`: four PCG32 output words assembled
little-endian into the 128-bit seed, then `Mcg128Xsl64::new` forces the
state odd. -/
def seedState (seed : Nat) : Nat :=
  let s1 := seedStep seed
  let s2 := seedStep s1
  let s3 := seedStep s2
  let s4 := seedStep s3
  (seedOut s1 + seedOut s2 * 2 ^ 32 + seedOut s3 * 2 ^ 64 + seedOut s4 * 2 ^ 96) ||| 1

/-- Words produced by `n` successive `next_u64` calls, with the final state. -/
def pcgFillWords (s : Nat) : Nat → List Nat × Nat
  | 0 => ([], s)
  | n + 1 =>
    let s' := pcgNext s
    let rest := pcgFillWords s' n
    (pcgOutput s' :: rest.1, rest.2)

/-- `u64::to_le_bytes`. -/
def le64 (w : Nat) : List Nat :=
  [w % 256, w / 2 ^ 8 % 256, w / 2 ^ 16 % 256, w / 2 ^ 24 % 256,
   w / 2 ^ 32 % 256, w / 2 ^ 40 % 256, w / 2 ^ 48 % 256, w / 2 ^ 56 % 256]

/-- `fill_bytes` via `next_u64` (rand_core's `fill_bytes_via_next`): whole
8-byte chunks are copied little-endian and a trailing fragment takes the low
bytes of one extra word, so a `len`-byte buffer is the `len`-byte prefix of
the byte stream of `ceil(len/8)` words. -/
def pcgFillBytes (s len : Nat) : List Nat × Nat :=
  let r := pcgFillWords s (divCeil len 8)
  ((r.1.map le64).flatten.take len, r.2)

/-- `u32::to_le_bytes`. -/
def le32 (w : Nat) : List Nat := [w % 256, w / 2 ^ 8 % 256, w / 2 ^ 16 % 256, w / 2 ^ 24 % 256]

/-- `u32::from_le_bytes` on a 4-byte slice. -/
def fromLE32 (l : List Nat) : Nat :=
  l.getD 0 0 + l.getD 1 0 * 2 ^ 8 + l.getD 2 0 * 2 ^ 16 + l.getD 3 0 * 2 ^ 24

/-- The infinite output word stream of a `Pcg64Mcg` started at state `s0`:
word `j` is emitted by the `j+1`-st `next_u64` call. -/
def pcgWord (s0 j : Nat) : Nat := pcgOutput (s0 * pcgMult ^ (j + 1) % pcgMod)

theorem pcgMod_pos : 0 < pcgMod := by norm_num [pcgMod]

theorem pcgFillWords_snd (s n : Nat) (hs : s < pcgMod) :
    (pcgFillWords s n).2 = pcgAdvance s n := by
  induction n generalizing s with
  | zero => simp [pcgFillWords, pcgAdvance, Nat.mod_eq_of_lt hs]
  | succ n ih =>
    show (pcgFillWords (pcgNext s) n).2 = _
    rw [ih (pcgNext s) (Nat.mod_lt _ pcgMod_pos)]
    unfold pcgAdvance pcgNext
    rw [Nat.mod_mul_mod]
    congr 1
    ring

theorem pcgFillWords_fst (s n : Nat) (hs : s < pcgMod) :
    (pcgFillWords s n).1 = (List.range n).map (pcgWord s) := by
  induction n generalizing s with
  | zero => simp [pcgFillWords]
  | succ n ih =>
    show pcgOutput (pcgNext s) :: (pcgFillWords (pcgNext s) n).1 = _
    rw [List.range_succ_eq_map, List.map_cons, ih (pcgNext s) (Nat.mod_lt _ pcgMod_pos)]
    congr 1
    rw [List.map_map]
    apply List.map_congr_left
    intro j _
    show pcgWord (pcgNext s) j = pcgWord s (j + 1)
    unfold pcgWord pcgNext
    rw [Nat.mod_mul_mod]
    congr 2
    ring

theorem pcgAdvance_lt (s d : Nat) : pcgAdvance s d < pcgMod :=
  Nat.mod_lt _ pcgMod_pos

theorem pcgWord_advance (s0 k j : Nat) :
    pcgWord (pcgAdvance s0 k) j = pcgWord s0 (k + j) := by
  unfold pcgWord pcgAdvance
  rw [Nat.mod_mul_mod]
  congr 2
  ring

/-! ## generate (src/generate.rs) -/

/-- State of one generate worker while iterating its chunk range: PRNG
state, thread-local hasher, bytes written so far, and the byte counter. -/
structure GenSt where
  rng : Nat
  hasher : Hasher
  out : List Nat
  total : Nat
deriving Repr

/-- `generate_chunk`: fill the whole buffer from the PRNG; when there is
room for a trailer (`write_size >= 4`), hash `buffer[..write_size-4]` into a
fresh hasher, fold that into the thread hasher, and overwrite the last four
visible bytes with the little-endian finalized CRC (also fed to the thread
hasher); otherwise write `write_size` zero bytes and do not touch the PRNG.
Returns the new PRNG state, the `write_size` visible bytes, and the updated
thread hasher. -/
def generateChunk (rng bufSize writeSize : Nat) (g : Hasher) : Nat × List Nat × Hasher :=
  if 4 ≤ writeSize then
    let f := pcgFillBytes rng bufSize
    let payload := f.1.take (writeSize - 4)
    let h := Hasher.new.update payload
    let g1 := g.combine h
    let ck := le32 h.finalize
    (f.2, payload ++ ck, g1.update ck)
  else
    (rng, List.replicate writeSize 0, g.update (List.replicate writeSize 0))

/-- One iteration of the generate worker loop (`for chunk in start..end`).
`write_size` is `min(position + stream_size - chunk*chunk_size, chunk_size)`
(never negative for in-range chunks, so `Nat` truncation is faithful). -/
def genStep (cs bufSize position streamSize : Nat) (st : GenSt) (chunk : Nat) : GenSt :=
  let writeSize := min (position + streamSize - chunk * cs) cs
  let r := generateChunk st.rng bufSize writeSize st.hasher
  ⟨r.1, r.2.2, st.out ++ r.2.1, st.total + writeSize⟩

/-- One generate worker thread `i`: it owns chunk range
`[i*chunks_per_thread + chunk_position, min((i+1)*chunks_per_thread,
num_chunks) + chunk_position)`, seeks to `start_chunk * chunk_size`, and
advances its private PRNG by `start_chunk * buffer_size / 8` words. -/
def genWorker (seed cs bufSize position streamSize numChunks cpt chunkPos i : Nat) : GenSt :=
  (List.range' (i * cpt + chunkPos)
      (min ((i + 1) * cpt) numChunks + chunkPos - (i * cpt + chunkPos))).foldl
    (genStep cs bufSize position streamSize)
    ⟨pcgAdvance (seedState seed) ((i * cpt + chunkPos) * bufSize / 8), Hasher.new, [], 0⟩

/-- The multi-worker file path of `generate`: per-thread results for worker
count `w`, with `buffer_size`, `num_chunks`, `chunks_per_thread` and
`chunk_position` as computed in the source (the zero-divisor guards are
modelled by `generatePlan`). -/
def generateWorkers (seed cs position streamSize w : Nat) : List GenSt :=
  let bufSize := divCeil cs 8 * 8
  let numChunks := divCeil streamSize cs
  let cpt := divCeil numChunks w
  let chunkPos := position / cs
  (List.range w).map (genWorker seed cs bufSize position streamSize numChunks cpt chunkPos)

/-- Bytes written to the file range `[position, position + streamSize)`:
worker `i+1`'s byte range starts where worker `i`'s ends, so the file bytes
are the worker outputs concatenated in worker order. -/
def generateBytes (seed cs position streamSize w : Nat) : List Nat :=
  ((generateWorkers seed cs position streamSize w).map GenSt.out).flatten

/-- Checksum merge step shared by generate and validate: clone hasher 0 and
fold `combine` over the remaining thread hashers in worker order; indexing
an empty vector would panic (`none`). -/
def mergeHashers (hs : List Hasher) : Option Hasher :=
  match hs with
  | [] => none
  | h :: t => some (t.foldl Hasher.combine h)

/-- The single-threaded stdout path of `generate`: the same chunk encoding
with a buffer of exactly `chunk_size` bytes and no start position.  Its
`while bytes_generated < stream_size` loop runs exactly once per chunk
index below `ceil(stream_size / chunk_size)`. -/
def genSeq (seed cs streamSize : Nat) : GenSt :=
  (List.range' 0 (divCeil streamSize cs)).foldl (genStep cs cs 0 streamSize)
    ⟨seedState seed, Hasher.new, [], 0⟩

/-- Byte stream written to stdout by the sequential path. -/
def genSeqBytes (seed cs streamSize : Nat) : List Nat := (genSeq seed cs streamSize).out

/-- Closed form of chunk `k`'s bytes: the payload is drawn from the word
window `[k*wd, (k+1)*wd)` of the seed's output word stream, where
`wd = ceil(chunk_size/8)` words are consumed per chunk, followed by the
little-endian CRC-32 of the payload; a chunk shorter than four bytes is all
zeros. -/
def streamChunk (seed cs position streamSize k : Nat) : List Nat :=
  if 4 ≤ min (position + streamSize - k * cs) cs then
    (((List.range' (k * divCeil cs 8) (divCeil cs 8)).map
        (pcgWord (seedState seed))).map le64).flatten.take
      (min (position + streamSize - k * cs) cs - 4)
    ++ le32 (crc32 ((((List.range' (k * divCeil cs 8) (divCeil cs 8)).map
        (pcgWord (seedState seed))).map le64).flatten.take
      (min (position + streamSize - k * cs) cs - 4)))
  else
    List.replicate (min (position + streamSize - k * cs) cs) 0

/-! ## Closed form of the generate loops -/

theorem pcgAdvance_add (s k d : Nat) : pcgAdvance (pcgAdvance s k) d = pcgAdvance s (k + d) := by
  unfold pcgAdvance
  rw [Nat.mod_mul_mod]
  congr 1
  rw [pow_add, Nat.mul_assoc]

theorem pcgFillBytes_advanced (seed k len : Nat) :
    pcgFillBytes (pcgAdvance (seedState seed) k) len
      = ((((List.range' k (divCeil len 8)).map (pcgWord (seedState seed))).map le64).flatten.take len,
         pcgAdvance (seedState seed) (k + divCeil len 8)) := by
  unfold pcgFillBytes
  show ((List.map le64 (pcgFillWords (pcgAdvance (seedState seed) k) (divCeil len 8)).1).flatten.take len,
      (pcgFillWords (pcgAdvance (seedState seed) k) (divCeil len 8)).2) = _
  rw [pcgFillWords_fst _ _ (pcgAdvance_lt _ _), pcgFillWords_snd _ _ (pcgAdvance_lt _ _),
    pcgAdvance_add]
  have hmap : (List.range (divCeil len 8)).map (pcgWord (pcgAdvance (seedState seed) k))
      = (List.range' k (divCeil len 8)).map (pcgWord (seedState seed)) := by
    rw [List.range'_eq_map_range, List.map_map]
    apply List.map_congr_left
    intro j _
    exact pcgWord_advance (seedState seed) k j
  rw [hmap]

theorem generateChunk_fst_long (seed cs bufLen position streamSize a : Nat) (g : Hasher)
    (hwd : divCeil bufLen 8 = divCeil cs 8)
    (hws : 4 ≤ min (position + streamSize - a * cs) cs) :
    (generateChunk (pcgAdvance (seedState seed) (a * divCeil cs 8)) bufLen
        (min (position + streamSize - a * cs) cs) g).1
      = pcgAdvance (seedState seed) ((a + 1) * divCeil cs 8) := by
  unfold generateChunk
  rw [if_pos hws]
  show (pcgFillBytes _ bufLen).2 = _
  rw [pcgFillBytes_advanced, hwd]
  have h1 : a * divCeil cs 8 + divCeil cs 8 = (a + 1) * divCeil cs 8 := by ring
  rw [h1]


theorem generateChunk_out_long (seed cs bufLen position streamSize a : Nat) (g : Hasher)
    (hwd : divCeil bufLen 8 = divCeil cs 8) (hbuf : cs ≤ bufLen)
    (hws : 4 ≤ min (position + streamSize - a * cs) cs) :
    (generateChunk (pcgAdvance (seedState seed) (a * divCeil cs 8)) bufLen
        (min (position + streamSize - a * cs) cs) g).2.1
      = streamChunk seed cs position streamSize a := by
  unfold generateChunk streamChunk
  rw [if_pos hws]
  show (pcgFillBytes _ bufLen).1.take _ ++ _ = _
  rw [pcgFillBytes_advanced, hwd]
  rw [if_pos hws]
  have htake : ((((List.range' (a * divCeil cs 8) (divCeil cs 8)).map
        (pcgWord (seedState seed))).map le64).flatten.take bufLen).take
        (min (position + streamSize - a * cs) cs - 4)
      = (((List.range' (a * divCeil cs 8) (divCeil cs 8)).map
        (pcgWord (seedState seed))).map le64).flatten.take
        (min (position + streamSize - a * cs) cs - 4) := by
    rw [List.take_take]
    congr 1
    omega
  rw [htake]
  rfl

theorem generateChunk_short (rng bufSize writeSize : Nat) (g : Hasher)
    (hws : writeSize < 4) :
    generateChunk rng bufSize writeSize g
      = (rng, List.replicate writeSize 0, g.update (List.replicate writeSize 0)) := by
  unfold generateChunk
  rw [if_neg (by omega)]

theorem streamChunk_short (seed cs position streamSize k : Nat)
    (hws : min (position + streamSize - k * cs) cs < 4) :
    streamChunk seed cs position streamSize k
      = List.replicate (min (position + streamSize - k * cs) cs) 0 := by
  unfold streamChunk
  rw [if_neg (by omega)]

theorem divCeil_pred_lt (S cs m : Nat) (hcs : 0 < cs) (hm : m + 1 = divCeil S cs) :
    m * cs < S := by
  unfold divCeil at hm
  have h1 := Nat.div_add_mod (S + cs - 1) cs
  have h2 : (S + cs - 1) % cs < cs := Nat.mod_lt _ hcs
  have h3 : cs * (m + 1) = m * cs + cs := by ring
  rw [← hm] at h1
  omega

theorem le_mul_divCeil (N W : Nat) (hW : 0 < W) : N ≤ W * divCeil N W := by
  unfold divCeil
  have h1 := Nat.div_add_mod (N + W - 1) W
  have h2 : (N + W - 1) % W < W := Nat.mod_lt _ hW
  omega

/-- Every chunk index strictly before the final one is written in full. -/
theorem chunk_ws_full (S cs position j : Nat) (hcs : 0 < cs)
    (hj : j + 1 < divCeil S cs + position / cs) :
    cs ≤ position + S - j * cs := by
  rcases Nat.eq_zero_or_pos (divCeil S cs) with hN0 | hN1
  · obtain ⟨q, hq⟩ : ∃ q, position / cs = q + 1 := ⟨position / cs - 1, by omega⟩
    have h1 : (j + 1) * cs ≤ q * cs := Nat.mul_le_mul_right cs (by omega)
    have h2 : (q + 1) * cs = q * cs + cs := by ring
    have h3 : position / cs * cs ≤ position := Nat.div_mul_le_self _ _
    rw [hq] at h3
    have hd2 : (j + 1) * cs = j * cs + cs := by ring
    omega
  obtain ⟨m, hm⟩ : ∃ m, divCeil S cs = m + 1 := ⟨divCeil S cs - 1, by omega⟩
  have hmS : m * cs < S := divCeil_pred_lt S cs m hcs hm.symm
  have hcp : position / cs * cs ≤ position := Nat.div_mul_le_self _ _
  have hj2 : j + 1 ≤ m + position / cs := by omega
  have hj3 : (j + 1) * cs ≤ (m + position / cs) * cs := Nat.mul_le_mul_right cs hj2
  have hd1 : (m + position / cs) * cs = m * cs + position / cs * cs := by ring
  have hd2 : (j + 1) * cs = j * cs + cs := by ring
  omega

/-- Unfolding a generate worker's loop over a range whose non-final chunks
are all full, starting from the correctly advanced PRNG state. -/
theorem genFold_long (seed cs bufLen position streamSize : Nat) (hcs4 : 4 ≤ cs)
    (hwd : divCeil bufLen 8 = divCeil cs 8) (hbuf : cs ≤ bufLen) :
    ∀ (n a : Nat) (st : GenSt),
      st.rng = pcgAdvance (seedState seed) (a * divCeil cs 8) →
      (∀ j, a ≤ j → j + 1 < a + n → cs ≤ position + streamSize - j * cs) →
      ((List.range' a n).foldl (genStep cs bufLen position streamSize) st).out
        = st.out ++ ((List.range' a n).map (streamChunk seed cs position streamSize)).flatten := by
  intro n
  induction n with
  | zero => intro a st _ _; simp
  | succ n ih =>
    intro a st hrng hlong
    rw [List.range'_succ, List.foldl_cons, List.map_cons, List.flatten_cons]
    by_cases hws : 4 ≤ min (position + streamSize - a * cs) cs
    · have hrng' : (genStep cs bufLen position streamSize st a).rng
          = pcgAdvance (seedState seed) ((a + 1) * divCeil cs 8) := by
        show (generateChunk st.rng bufLen (min (position + streamSize - a * cs) cs) st.hasher).1 = _
        rw [hrng]
        exact generateChunk_fst_long seed cs bufLen position streamSize a st.hasher hwd hws
      have hout : (genStep cs bufLen position streamSize st a).out
          = st.out ++ streamChunk seed cs position streamSize a := by
        show st.out ++ (generateChunk st.rng bufLen (min (position + streamSize - a * cs) cs) st.hasher).2.1 = _
        rw [hrng]
        rw [generateChunk_out_long seed cs bufLen position streamSize a st.hasher hwd hbuf hws]
      rw [ih (a + 1) _ hrng' (fun j hj1 hj2 => hlong j (by omega) (by omega)), hout,
        List.append_assoc]
    · have hn : n = 0 := by
        by_contra hne
        have := hlong a (le_refl a) (by omega)
        omega
      subst hn
      simp only [List.range'_zero, List.foldl_nil, List.map_nil, List.flatten_nil,
        List.append_nil]
      have hws' : min (position + streamSize - a * cs) cs < 4 := by omega
      show st.out ++ (generateChunk st.rng bufLen (min (position + streamSize - a * cs) cs) st.hasher).2.1 = _
      rw [generateChunk_short _ _ _ _ hws', streamChunk_short _ _ _ _ _ hws']

/-- With a chunk size below four bytes every chunk is zero-filled and the
PRNG is never consulted, so the loop output needs no PRNG invariant. -/
theorem genFold_allshort (seed cs bufLen position streamSize : Nat) (hcs4 : cs < 4) :
    ∀ (n a : Nat) (st : GenSt),
      ((List.range' a n).foldl (genStep cs bufLen position streamSize) st).out
        = st.out ++ ((List.range' a n).map (streamChunk seed cs position streamSize)).flatten := by
  intro n
  induction n with
  | zero => intro a st; simp
  | succ n ih =>
    intro a st
    rw [List.range'_succ, List.foldl_cons, List.map_cons, List.flatten_cons, ih (a + 1)]
    have hws : min (position + streamSize - a * cs) cs < 4 := by omega
    have hout : (genStep cs bufLen position streamSize st a).out
        = st.out ++ streamChunk seed cs position streamSize a := by
      show st.out ++ (generateChunk st.rng bufLen (min (position + streamSize - a * cs) cs) st.hasher).2.1 = _
      rw [generateChunk_short _ _ _ _ hws, streamChunk_short _ _ _ _ _ hws]
    rw [hout, List.append_assoc]

theorem rotr32_lt (x r : Nat) (hx : x < 2 ^ 32) : rotr32 x r < 2 ^ 32 := by
  unfold rotr32
  have ht : r % 32 < 32 := Nat.mod_lt _ (by norm_num)
  have hAB : 2 ^ (r % 32) * 2 ^ (32 - r % 32) = 2 ^ 32 := by
    rw [← pow_add]
    congr 1
    omega
  have hA : 0 < 2 ^ (r % 32) := by positivity
  have hB : 0 < 2 ^ (32 - r % 32) := by positivity
  have h1 : x / 2 ^ (r % 32) < 2 ^ (32 - r % 32) := by
    apply Nat.div_lt_of_lt_mul
    rw [hAB]
    exact hx
  have h2 : x % 2 ^ (r % 32) < 2 ^ (r % 32) := Nat.mod_lt _ hA
  have h3 : x % 2 ^ (r % 32) * 2 ^ (32 - r % 32) ≤ (2 ^ (r % 32) - 1) * 2 ^ (32 - r % 32) :=
    Nat.mul_le_mul_right _ (by omega)
  have h4 : (2 ^ (r % 32) - 1) * 2 ^ (32 - r % 32)
      = 2 ^ (r % 32) * 2 ^ (32 - r % 32) - 1 * 2 ^ (32 - r % 32) :=
    Nat.sub_mul _ 1 _
  have h5 : 2 ^ (32 - r % 32) ≤ 2 ^ 32 := by
    rw [← hAB]
    exact Nat.le_mul_of_pos_left _ hA
  rw [hAB] at h4
  omega

theorem seedOut_lt (s : Nat) : seedOut s < 2 ^ 32 := by
  unfold seedOut
  exact rotr32_lt _ _ (Nat.mod_lt _ (by norm_num))

theorem seedState_lt (seed : Nat) : seedState seed < pcgMod := by
  have h1 := seedOut_lt (seedStep seed)
  have h2 := seedOut_lt (seedStep (seedStep seed))
  have h3 := seedOut_lt (seedStep (seedStep (seedStep seed)))
  have h4 := seedOut_lt (seedStep (seedStep (seedStep (seedStep seed))))
  show (seedOut (seedStep seed) + seedOut (seedStep (seedStep seed)) * 2 ^ 32
      + seedOut (seedStep (seedStep (seedStep seed))) * 2 ^ 64
      + seedOut (seedStep (seedStep (seedStep (seedStep seed)))) * 2 ^ 96) ||| 1 < 2 ^ 128
  refine Nat.or_lt_two_pow ?_ (by norm_num)
  omega

/-- Closed form of one worker's output bytes: the chunk contents of its
range, concatenated in order. -/
theorem genWorker_out (seed cs position streamSize cpt i : Nat) (hcs : 0 < cs) :
    (genWorker seed cs (divCeil cs 8 * 8) position streamSize (divCeil streamSize cs) cpt
        (position / cs) i).out
      = ((List.range' (i * cpt + position / cs)
            (min ((i + 1) * cpt) (divCeil streamSize cs) - i * cpt)).map
          (streamChunk seed cs position streamSize)).flatten := by
  unfold genWorker
  have hlen : min ((i + 1) * cpt) (divCeil streamSize cs) + position / cs
      - (i * cpt + position / cs)
      = min ((i + 1) * cpt) (divCeil streamSize cs) - i * cpt := by omega
  rw [hlen]
  have hwd : divCeil (divCeil cs 8 * 8) 8 = divCeil cs 8 := by unfold divCeil; omega
  have hbuf : cs ≤ divCeil cs 8 * 8 := by unfold divCeil; omega
  have hrng : pcgAdvance (seedState seed) ((i * cpt + position / cs) * (divCeil cs 8 * 8) / 8)
      = pcgAdvance (seedState seed) ((i * cpt + position / cs) * divCeil cs 8) := by
    have hm : (i * cpt + position / cs) * (divCeil cs 8 * 8)
        = (i * cpt + position / cs) * divCeil cs 8 * 8 := by ring
    rw [hm, Nat.mul_div_cancel _ (by norm_num)]
  rcases le_or_lt 4 cs with h4 | h4
  · rw [hrng]
    rw [genFold_long seed cs (divCeil cs 8 * 8) position streamSize h4 hwd hbuf _ _ _ rfl ?_]
    · simp
    · intro j hj1 hj2
      refine chunk_ws_full streamSize cs position j hcs ?_
      omega
  · rw [genFold_allshort seed cs (divCeil cs 8 * 8) position streamSize h4]
    simp

/-- The worker chunk ranges tile `[chunk_position, num_chunks +
chunk_position)` in worker order. -/
theorem worker_ranges_tile (cpt cp N : Nat) :
    ∀ W, ((List.range W).map
        (fun i => List.range' (i * cpt + cp) (min ((i + 1) * cpt) N - i * cpt))).flatten
      = List.range' cp (min (W * cpt) N) := by
  intro W
  induction W with
  | zero => simp
  | succ W ih =>
    rw [List.range_succ, List.map_append, List.flatten_append, ih]
    simp only [List.map_cons, List.map_nil, List.flatten_cons, List.flatten_nil,
      List.append_nil]
    have hmono : W * cpt ≤ (W + 1) * cpt := Nat.mul_le_mul_right cpt (by omega)
    rcases le_or_lt N (W * cpt) with h | h
    · rw [min_eq_right h, min_eq_right (le_trans h hmono), Nat.sub_eq_zero_of_le (by omega)]
      simp
    · rw [min_eq_left (le_of_lt h)]
      have happ := List.range'_append cp (W * cpt) (min ((W + 1) * cpt) N - W * cpt) 1
      simp only [Nat.one_mul, Nat.mul_one] at happ
      have hstart : W * cpt + cp = cp + W * cpt := by ring
      rw [hstart, happ]
      congr 1
      omega

/-- Closed form of the whole multi-worker output: all chunks of
`[chunk_position, num_chunks + chunk_position)` in order. -/
theorem generateBytes_closed (seed cs position streamSize W : Nat) (hcs : 0 < cs)
    (hW : 0 < W) :
    generateBytes seed cs position streamSize W
      = ((List.range' (position / cs) (divCeil streamSize cs)).map
          (streamChunk seed cs position streamSize)).flatten := by
  unfold generateBytes generateWorkers
  rw [List.map_map]
  have hmap : (List.range W).map
        (GenSt.out ∘ genWorker seed cs (divCeil cs 8 * 8) position streamSize
          (divCeil streamSize cs) (divCeil (divCeil streamSize cs) W) (position / cs))
      = (List.range W).map (fun i =>
          ((List.range' (i * divCeil (divCeil streamSize cs) W + position / cs)
              (min ((i + 1) * divCeil (divCeil streamSize cs) W) (divCeil streamSize cs)
                - i * divCeil (divCeil streamSize cs) W)).map
            (streamChunk seed cs position streamSize)).flatten) := by
    apply List.map_congr_left
    intro i _
    exact genWorker_out seed cs position streamSize _ i hcs
  rw [hmap]
  have hjoin : ∀ (f : Nat → List Nat) (ls : List (List Nat)),
      (ls.map (fun l => (l.map f).flatten)).flatten = (ls.flatten.map f).flatten := by
    intro f ls
    induction ls with
    | nil => rfl
    | cons a ls ih => simp [List.map_append, ih]
  have hcompose : (List.range W).map (fun i =>
        ((List.range' (i * divCeil (divCeil streamSize cs) W + position / cs)
            (min ((i + 1) * divCeil (divCeil streamSize cs) W) (divCeil streamSize cs)
              - i * divCeil (divCeil streamSize cs) W)).map
          (streamChunk seed cs position streamSize)).flatten)
      = ((List.range W).map (fun i =>
          List.range' (i * divCeil (divCeil streamSize cs) W + position / cs)
            (min ((i + 1) * divCeil (divCeil streamSize cs) W) (divCeil streamSize cs)
              - i * divCeil (divCeil streamSize cs) W))).map (fun l =>
          (l.map (streamChunk seed cs position streamSize)).flatten) := by
    rw [List.map_map]
    rfl
  rw [hcompose, hjoin, worker_ranges_tile]
  rw [min_eq_right (le_mul_divCeil (divCeil streamSize cs) W hW)]

/-- Closed form of the sequential stdout path: the same chunk list. -/
theorem genSeqBytes_closed (seed cs streamSize : Nat) (hcs : 0 < cs) :
    genSeqBytes seed cs streamSize
      = ((List.range' 0 (divCeil streamSize cs)).map
          (streamChunk seed cs 0 streamSize)).flatten := by
  unfold genSeqBytes genSeq
  rcases le_or_lt 4 cs with h4 | h4
  · rw [genFold_long seed cs cs 0 streamSize h4 rfl (le_refl cs) _ _ _ ?_ ?_]
    · simp
    · show seedState seed = pcgAdvance (seedState seed) (0 * divCeil cs 8)
      unfold pcgAdvance
      rw [Nat.zero_mul, pow_zero, Nat.mul_one, Nat.mod_eq_of_lt (seedState_lt seed)]
    · intro j hj1 hj2
      refine chunk_ws_full streamSize cs 0 j hcs ?_
      simp only [Nat.zero_div]
      omega
  · rw [genFold_allshort seed cs cs 0 streamSize h4]
    simp

/-! ## validate (src/validate.rs) -/

/-- Errors surfaced by `validate`: a per-chunk checksum mismatch carrying
the chunk index together with the stored (expected) and recomputed (actual)
CRC values, a nonzero byte in a short tail, and the whole-stream
expected-checksum mismatch carrying the caller's string and the computed
value. -/
inductive VError where
  | checksumMismatch (chunk expected actual : Nat)
  | invalidTrailingBytes
  | expectedChecksumMismatch (expected : String) (actual : Nat)
deriving DecidableEq, Repr

/-- `validate_chunk`: with at least four bytes, recompute the CRC over
everything but the trailer and compare it with the little-endian trailer;
a shorter chunk must be entirely zero. -/
def validateChunk (chunk : Nat) (buffer : List Nat) : Except VError Unit :=
  if 4 ≤ buffer.length then
    let streamChecksum := fromLE32 (buffer.drop (buffer.length - 4))
    let checksum := crc32 (buffer.take (buffer.length - 4))
    if streamChecksum ≠ checksum then
      .error (.checksumMismatch chunk streamChecksum checksum)
    else .ok ()
  else if buffer.any (fun v => v ≠ 0) then .error .invalidTrailingBytes
  else .ok ()

/-- Accumulator of one validate worker: thread hasher and byte counter. -/
structure ValSt where
  hasher : Hasher
  total : Nat
deriving Repr

/-- One iteration of the validate worker loop: `read_exact_or_eof` yields
the next `chunk_size` bytes at the worker's cursor (fewer at end of file),
which are validated as chunk `chunk` and folded into the thread hasher; an
error aborts the worker's scan. -/
def valStep (bytes : List Nat) (cs : Nat) (acc : Except VError ValSt) (chunk : Nat) :
    Except VError ValSt :=
  match acc with
  | .error e => .error e
  | .ok st =>
    let slice := (bytes.drop (chunk * cs)).take cs
    match validateChunk chunk slice with
    | .error e => .error e
    | .ok _ => .ok ⟨st.hasher.update slice, st.total + slice.length⟩

/-- One validate worker thread over chunk range
`[i*chunks_per_thread, min((i+1)*chunks_per_thread, num_chunks))`. -/
def valWorker (bytes : List Nat) (cs numChunks cpt i : Nat) : Except VError ValSt :=
  (List.range' (i * cpt) (min ((i + 1) * cpt) numChunks - i * cpt)).foldl
    (valStep bytes cs) (.ok ⟨Hasher.new, 0⟩)

/-- `try_collect` over the joined worker results: the first error in worker
index order wins. -/
def collectResults : List (Except VError ValSt) → Except VError (List ValSt)
  | [] => .ok []
  | .error e :: _ => .error e
  | .ok st :: rest =>
    match collectResults rest with
    | .error e => .error e
    | .ok sts => .ok (st :: sts)

/-! ## The f64 arithmetic in validate's partition computation -/

/-- Floor of the base-2 logarithm for positive values below `2^129`,
computed by counting the powers of two that fit. -/
def floorLog2 (n : Nat) : Nat := ((List.range 128).filter (fun k => 2 ^ (k + 1) ≤ n)).length

/-- Round `num/den` to the nearest integer, ties to even (`den > 0`). -/
def roundNearest (num den : Nat) : Nat :=
  let q := num / den
  let r := num % den
  if 2 * r < den then q
  else if den < 2 * r then q + 1
  else if q % 2 = 0 then q else q + 1

/-- `u64 as f64`: exact below `2^53`, otherwise round the value to 53
significant bits, nearest-even (every `u64` stays an integer as an `f64`). -/
def toF64 (n : Nat) : Nat :=
  if n < 2 ^ 53 then n
  else roundNearest n (2 ^ (floorLog2 n - 52)) * 2 ^ (floorLog2 n - 52)

/-- `(x as f64 / y as f64).ceil() as u64` evaluated exactly on the integer
values `x`, `y` of two already-converted `f64`s: IEEE division is correctly
rounded (nearest-even) at 53 significant bits, `ceil` is exact, and the
`u64` cast saturates (`x/0` is `inf` saturating to `u64::MAX`; `0/0` is NaN
casting to 0). -/
def f64CeilDivCast (x y : Nat) : Nat :=
  if y = 0 then (if x = 0 then 0 else 2 ^ 64 - 1)
  else if x = 0 then 0
  else if x < y then 1
  else
    min (if 52 ≤ floorLog2 (x / y) then
          roundNearest x (y * 2 ^ (floorLog2 (x / y) - 52)) * 2 ^ (floorLog2 (x / y) - 52)
        else
          (roundNearest (x * 2 ^ (52 - floorLog2 (x / y))) y + 2 ^ (52 - floorLog2 (x / y)) - 1)
            / 2 ^ (52 - floorLog2 (x / y)))
      (2 ^ 64 - 1)

/-- `num_chunks = (stream_size as f64 / chunk_size as f64).ceil() as u64`
as computed by `validate`. -/
def valNumChunks (streamSize cs : Nat) : Nat := f64CeilDivCast (toF64 streamSize) (toF64 cs)

/-- `chunks_per_thread = (num_chunks as f64 / num_threads as f64).ceil() as
u64` as computed by `validate`. -/
def valChunksPerThread (numChunks w : Nat) : Nat := f64CeilDivCast (toF64 numChunks) (toF64 w)

/-- Lowercase hexadecimal digit as produced by Rust `{:x}` formatting. -/
def hexDigit (d : Nat) : Char :=
  if d < 10 then Char.ofNat (48 + d) else Char.ofNat (87 + d)

/-- `format!("{checksum:08x}")` for a 32-bit value: eight lowercase hex
digits, most significant first. -/
def toHex8 (n : Nat) : String :=
  ⟨[hexDigit (n / 16 ^ 7 % 16), hexDigit (n / 16 ^ 6 % 16), hexDigit (n / 16 ^ 5 % 16),
    hexDigit (n / 16 ^ 4 % 16), hexDigit (n / 16 ^ 3 % 16), hexDigit (n / 16 ^ 2 % 16),
    hexDigit (n / 16 % 16), hexDigit (n % 16)]⟩

/-- The multi-worker file path of `validate`: workers over the f64-computed
partition are joined (first error in worker order), byte counts are summed,
thread hashers are merged in worker order, and only then is the optional
expected-checksum gate compared against the formatted checksum.  The result
is the pair (bytes read, checksum); `none` models the `thread_hashers[0]`
panic on an empty worker list. -/
def validateRun (bytes : List Nat) (cs w : Nat) (expected : Option String) :
    Option (Except VError (Nat × Nat)) :=
  match collectResults ((List.range w).map
      (valWorker bytes cs (valNumChunks bytes.length cs)
        (valChunksPerThread (valNumChunks bytes.length cs) w))) with
  | .error e => some (.error e)
  | .ok sts =>
    match mergeHashers (sts.map ValSt.hasher) with
    | none => none
    | some h =>
      match expected with
      | some e =>
        if e ≠ toHex8 h.finalize
          then some (.error (.expectedChecksumMismatch e h.finalize))
          else some (.ok ((sts.map ValSt.total).sum, h.finalize))
      | none => some (.ok ((sts.map ValSt.total).sum, h.finalize))

/-! ## Configuration phase of generate (zero-divisor behaviour, C9) -/

/-- Outcome of `generate`'s configuration phase in file mode. -/
inductive GenPlan where
  | validationError
  | panicDivZero
  | ok (numChunks chunksPerThread : Nat)
deriving DecidableEq, Repr

/-- Entry checks and partition arithmetic of `generate` (file mode):
`position.is_multiple_of(chunk_size)` (for a zero chunk size this holds
only at position zero) yields a validation error when it fails; then
`stream_size.div_ceil(chunk_size)` and `num_chunks.div_ceil(num_threads)`
execute `u64::div_ceil`, which panics on a zero divisor. -/
def generatePlan (position cs w streamSize : Nat) : GenPlan :=
  if position % cs ≠ 0 then .validationError
  else if cs = 0 then .panicDivZero
  else if w = 0 then .panicDivZero
  else .ok (divCeil streamSize cs) (divCeil (divCeil streamSize cs) w)

/-! ## Chunk lengths, byte bounds, slices -/

theorem flatten_map_le64_length (l : List Nat) : ((l.map le64).flatten).length = 8 * l.length := by
  induction l with
  | nil => rfl
  | cons a l ih =>
    simp only [List.map_cons, List.flatten_cons, List.length_append, ih, List.length_cons]
    have h8 : (le64 a).length = 8 := rfl
    omega

theorem streamChunk_length (seed cs position streamSize k : Nat) :
    (streamChunk seed cs position streamSize k).length
      = min (position + streamSize - k * cs) cs := by
  unfold streamChunk
  split
  · rw [List.length_append, List.length_take, flatten_map_le64_length, List.length_map,
      List.length_range']
    have hb : cs ≤ 8 * divCeil cs 8 := by unfold divCeil; omega
    have h4 : (le32 (crc32 ((((List.range' (k * divCeil cs 8) (divCeil cs 8)).map
        (pcgWord (seedState seed))).map le64).flatten.take
          (min (position + streamSize - k * cs) cs - 4)))).length = 4 := rfl
    omega
  · simp

theorem le64_bytes_lt (w : Nat) : ∀ b ∈ le64 w, b < 256 := by
  intro b hb
  simp only [le64, List.mem_cons, List.not_mem_nil, or_false] at hb
  rcases hb with h | h | h | h | h | h | h | h <;> subst h <;> exact Nat.mod_lt _ (by norm_num)

theorem le32_bytes_lt (w : Nat) : ∀ b ∈ le32 w, b < 256 := by
  intro b hb
  simp only [le32, List.mem_cons, List.not_mem_nil, or_false] at hb
  rcases hb with h | h | h | h <;> subst h <;> exact Nat.mod_lt _ (by norm_num)

theorem streamChunk_bytes_lt (seed cs position streamSize k : Nat) :
    ∀ b ∈ streamChunk seed cs position streamSize k, b < 256 := by
  intro b hb
  unfold streamChunk at hb
  split at hb
  · rcases List.mem_append.mp hb with h | h
    · obtain ⟨l, hl, hbl⟩ := List.mem_flatten.mp (List.mem_of_mem_take h)
      obtain ⟨w, _, rfl⟩ := List.mem_map.mp hl
      exact le64_bytes_lt w b hbl
    · exact le32_bytes_lt _ b h
  · rw [List.eq_of_mem_replicate hb]
    norm_num

theorem crc32_lt_bytes (bs : List Nat) (hb : ∀ b ∈ bs, b < 256) : crc32 bs < 2 ^ 32 :=
  crc32Update_lt 0 bs (by norm_num) (fun b h => lt_trans (hb b h) (by norm_num))

theorem fromLE32_le32 (c : Nat) (hc : c < 2 ^ 32) : fromLE32 (le32 c) = c := by
  unfold fromLE32 le32
  simp only [List.getD, List.get?_eq_getElem?, List.getElem?_cons_zero]
  norm_num
  omega

/-- A chunk produced by the generate codec carries, as its last four bytes,
the little-endian CRC-32 of its preceding bytes, and decode/validate
recomputes and accepts it. -/
theorem validateChunk_streamChunk (seed cs position streamSize k idx : Nat)
    (hws4 : 4 ≤ min (position + streamSize - k * cs) cs) :
    validateChunk idx (streamChunk seed cs position streamSize k) = .ok () := by
  unfold streamChunk
  rw [if_pos hws4]
  have hb : cs ≤ 8 * divCeil cs 8 := by unfold divCeil; omega
  have hplen : ((((List.range' (k * divCeil cs 8) (divCeil cs 8)).map
      (pcgWord (seedState seed))).map le64).flatten.take
        (min (position + streamSize - k * cs) cs - 4)).length
      = min (position + streamSize - k * cs) cs - 4 := by
    rw [List.length_take, flatten_map_le64_length, List.length_map, List.length_range']
    omega
  set payload := (((List.range' (k * divCeil cs 8) (divCeil cs 8)).map
      (pcgWord (seedState seed))).map le64).flatten.take
        (min (position + streamSize - k * cs) cs - 4) with hpayload
  have hcrc : crc32 payload < 2 ^ 32 := by
    apply crc32_lt_bytes
    intro b hbmem
    obtain ⟨l, hl, hbl⟩ := List.mem_flatten.mp (List.mem_of_mem_take hbmem)
    obtain ⟨w, _, rfl⟩ := List.mem_map.mp hl
    exact le64_bytes_lt w b hbl
  unfold validateChunk
  have hlen : (payload ++ le32 (crc32 payload)).length
      = min (position + streamSize - k * cs) cs := by
    rw [List.length_append, hplen]
    have h4 : (le32 (crc32 payload)).length = 4 := rfl
    omega
  rw [if_pos (by omega)]
  have hdroplen : (payload ++ le32 (crc32 payload)).length - 4 = payload.length := by
    rw [hlen, hplen]
  rw [hdroplen, List.drop_left, List.take_left, fromLE32_le32 _ hcrc]
  simp

/-- Short chunks of zeros validate successfully. -/
theorem validateChunk_replicate_zero (idx n : Nat) (hn : n < 4) :
    validateChunk idx (List.replicate n 0) = .ok () := by
  unfold validateChunk
  rw [if_neg (by simp [List.length_replicate]; omega)]
  rw [if_neg ?_]
  intro hany
  obtain ⟨x, hx, hxne⟩ := List.any_eq_true.mp hany
  exact absurd (List.eq_of_mem_replicate hx) (by simpa using hxne)

theorem validateChunk_nil (idx : Nat) : validateChunk idx [] = .ok () := by
  have h := validateChunk_replicate_zero idx 0 (by norm_num)
  simpa using h

/-! ## Stream length and slices -/

theorem flatten_chunks_length (seed cs S : Nat) (hcs : 0 < cs) :
    ∀ n k, k + n = divCeil S cs →
      (((List.range' k n).map (streamChunk seed cs 0 S)).flatten).length = S - k * cs := by
  intro n
  induction n with
  | zero =>
    intro k hk
    have hkN : k = divCeil S cs := by omega
    subst hkN
    have hS := le_mul_divCeil S cs hcs
    have hcomm : cs * divCeil S cs = divCeil S cs * cs := by ring
    simp only [List.range'_zero, List.map_nil, List.flatten_nil, List.length_nil]
    omega
  | succ n ih =>
    intro k hk
    rw [List.range'_succ, List.map_cons, List.flatten_cons, List.length_append,
      ih (k + 1) (by omega), streamChunk_length]
    have h1 : (k + 1) * cs = k * cs + cs := by ring
    have hS := le_mul_divCeil S cs hcs
    have hcomm : cs * divCeil S cs = divCeil S cs * cs := by ring
    have hful : k + 1 < divCeil S cs → cs ≤ S - k * cs := by
      intro hlt
      have := chunk_ws_full S cs 0 k hcs (by simpa using by omega)
      omega
    rcases Nat.lt_or_ge (k + 1) (divCeil S cs) with hlt | hge
    · have := hful hlt
      omega
    · have hkN : k + 1 = divCeil S cs := by omega
      have hklt : k * cs < divCeil S cs * cs := by
        rw [← hkN, h1]
        omega
      omega

theorem genSeqBytes_length (seed cs S : Nat) (hcs : 0 < cs) :
    (genSeqBytes seed cs S).length = S := by
  rw [genSeqBytes_closed seed cs S hcs, flatten_chunks_length seed cs S hcs _ 0 (by omega)]
  omega

theorem genSeqBytes_drop (seed cs S : Nat) (hcs : 0 < cs) :
    ∀ k, k ≤ divCeil S cs →
      (genSeqBytes seed cs S).drop (k * cs)
        = ((List.range' k (divCeil S cs - k)).map (streamChunk seed cs 0 S)).flatten := by
  intro k
  induction k with
  | zero =>
    intro _
    simp [genSeqBytes_closed seed cs S hcs]
  | succ k ih =>
    intro hk
    have h1 : (k + 1) * cs = k * cs + cs := by ring
    rw [h1, ← List.drop_drop cs (k * cs), ih (by omega)]
    have hNk : divCeil S cs - k = (divCeil S cs - (k + 1)) + 1 := by omega
    rw [hNk, List.range'_succ, List.map_cons, List.flatten_cons]
    rcases Nat.lt_or_ge (k + 1) (divCeil S cs) with hlt | hge
    · have hws : cs ≤ S - k * cs := by
        have := chunk_ws_full S cs 0 k hcs (by simpa using by omega)
        omega
      have hlen : (streamChunk seed cs 0 S k).length = cs := by
        rw [streamChunk_length]
        omega
      rw [List.drop_left' hlen]
    · have h0 : divCeil S cs - (k + 1) = 0 := by omega
      rw [h0]
      simp only [List.range'_zero, List.map_nil, List.flatten_nil, List.append_nil]
      apply List.drop_eq_nil_of_le
      rw [streamChunk_length]
      omega

theorem genSeqBytes_slice (seed cs S k : Nat) (hcs : 0 < cs) (hk : k < divCeil S cs) :
    ((genSeqBytes seed cs S).drop (k * cs)).take cs = streamChunk seed cs 0 S k := by
  rw [genSeqBytes_drop seed cs S hcs k (le_of_lt hk)]
  have hNk : divCeil S cs - k = (divCeil S cs - (k + 1)) + 1 := by omega
  rw [hNk, List.range'_succ, List.map_cons, List.flatten_cons]
  rcases Nat.lt_or_ge (k + 1) (divCeil S cs) with hlt | hge
  · have hws : cs ≤ S - k * cs := by
      have := chunk_ws_full S cs 0 k hcs (by simpa using by omega)
      omega
    have hlen : (streamChunk seed cs 0 S k).length = cs := by
      rw [streamChunk_length]
      omega
    rw [List.take_left' hlen]
  · have h0 : divCeil S cs - (k + 1) = 0 := by omega
    rw [h0]
    simp only [List.range'_zero, List.map_nil, List.flatten_nil, List.append_nil]
    apply List.take_of_length_le
    rw [streamChunk_length]
    omega

/-- Every `chunk_size` slice of a generated stream validates cleanly, chunk
indices beyond the end reading as empty. -/
theorem gen_slice_validates (seed cs S k : Nat) (hcs : 0 < cs) :
    validateChunk k (((genSeqBytes seed cs S).drop (k * cs)).take cs) = .ok () := by
  rcases Nat.lt_or_ge k (divCeil S cs) with hk | hk
  · rw [genSeqBytes_slice seed cs S k hcs hk]
    by_cases hws : 4 ≤ min (0 + S - k * cs) cs
    · exact validateChunk_streamChunk seed cs 0 S k k hws
    · rw [streamChunk_short seed cs 0 S k (by omega)]
      exact validateChunk_replicate_zero _ _ (by omega)
  · have hlen : (genSeqBytes seed cs S).length ≤ k * cs := by
      rw [genSeqBytes_length seed cs S hcs]
      calc S ≤ cs * divCeil S cs := le_mul_divCeil S cs hcs
        _ ≤ cs * k := Nat.mul_le_mul_left cs hk
        _ = k * cs := by ring
    rw [List.drop_eq_nil_of_le hlen]
    simpa using validateChunk_nil k

/-! ## validate run success -/

theorem valFold_ok (bytes : List Nat) (cs : Nat) (l : List Nat) :
    ∀ st : ValSt, (∀ k ∈ l, validateChunk k ((bytes.drop (k * cs)).take cs) = .ok ()) →
      ∃ st', l.foldl (valStep bytes cs) (.ok st) = .ok st' := by
  induction l with
  | nil => intro st _; exact ⟨st, rfl⟩
  | cons k l ih =>
    intro st h
    rw [List.foldl_cons]
    have hk := h k (List.mem_cons_self k l)
    have hstep : valStep bytes cs (.ok st) k
        = .ok ⟨st.hasher.update ((bytes.drop (k * cs)).take cs),
               st.total + ((bytes.drop (k * cs)).take cs).length⟩ := by
      simp only [valStep, hk]
    rw [hstep]
    exact ih _ (fun j hj => h j (List.mem_cons_of_mem k hj))

theorem valWorker_ok (bytes : List Nat) (cs numChunks cpt i : Nat)
    (h : ∀ k, validateChunk k ((bytes.drop (k * cs)).take cs) = .ok ()) :
    ∃ st, valWorker bytes cs numChunks cpt i = .ok st := by
  unfold valWorker
  exact valFold_ok bytes cs _ _ (fun k _ => h k)

theorem collectResults_ok (f : Nat → Except VError ValSt) (l : List Nat)
    (h : ∀ i ∈ l, ∃ st, f i = .ok st) :
    ∃ sts : List ValSt, collectResults (l.map f) = .ok sts ∧ sts.length = l.length := by
  induction l with
  | nil => exact ⟨[], rfl, rfl⟩
  | cons i l ih =>
    obtain ⟨st, hst⟩ := h i (List.mem_cons_self i l)
    obtain ⟨sts, hsts, hlen⟩ := ih (fun j hj => h j (List.mem_cons_of_mem i hj))
    refine ⟨st :: sts, ?_, by simp [hlen]⟩
    rw [List.map_cons, hst]
    simp only [collectResults, hsts]

/-- A clean stream is accepted by the multi-worker validate run whatever
worker count (at least one) and whatever the f64 partition computes. -/
theorem validateRun_ok (bytes : List Nat) (cs w : Nat) (hw : 0 < w)
    (h : ∀ k, validateChunk k ((bytes.drop (k * cs)).take cs) = .ok ()) :
    ∃ r, validateRun bytes cs w none = some (.ok r) := by
  unfold validateRun
  obtain ⟨sts, hsts, hlen⟩ := collectResults_ok
    (valWorker bytes cs (valNumChunks bytes.length cs)
      (valChunksPerThread (valNumChunks bytes.length cs) w))
    (List.range w)
    (fun i _ => valWorker_ok bytes cs _ _ i h)
  rw [hsts]
  obtain ⟨s0, rest, rfl⟩ : ∃ s0 rest, sts = s0 :: rest := by
    cases sts with
    | nil => simp at hlen; omega
    | cons s0 rest => exact ⟨s0, rest, rfl⟩
  exact ⟨_, rfl⟩

/-! ## The expected-checksum gate -/

theorem validateRun_gate (bytes : List Nat) (cs w : Nat) (e : String) :
    (∀ n ck, validateRun bytes cs w none = some (.ok (n, ck)) →
      validateRun bytes cs w (some e)
        = (if e = toHex8 ck then some (.ok (n, ck))
           else some (.error (.expectedChecksumMismatch e ck)))) ∧
    (∀ err, validateRun bytes cs w none = some (.error err) →
      validateRun bytes cs w (some e) = some (.error err)) := by
  unfold validateRun
  rcases hcol : collectResults ((List.range w).map
      (valWorker bytes cs (valNumChunks bytes.length cs)
        (valChunksPerThread (valNumChunks bytes.length cs) w))) with err | sts
  · refine ⟨fun n ck hok => by simp at hok, fun err2 herr => by simpa using herr⟩
  · rcases hmer : mergeHashers (sts.map ValSt.hasher) with _ | hh
    · refine ⟨fun n ck hok => by simp [hmer] at hok, fun err2 herr => by simp [hmer] at herr⟩
    · constructor
      · intro n ck hok
        simp only [hmer, Option.some.injEq] at hok ⊢
        obtain ⟨rfl, rfl⟩ : (sts.map ValSt.total).sum = n ∧ hh.finalize = ck := by
          cases hok
          exact ⟨rfl, rfl⟩
        by_cases hcmp : e = toHex8 hh.finalize
        · rw [if_neg (by simpa using hcmp), if_pos hcmp]
        · rw [if_pos (by simpa using hcmp), if_neg hcmp]
      · intro err2 herr
        simp [hmer] at herr

/-! ## Injectivity of the hex rendering (for the checksum gate) -/

theorem hexDigit_inj : ∀ d1 < 16, ∀ d2 < 16, hexDigit d1 = hexDigit d2 → d1 = d2 := by decide

theorem toHex8_inj (a b : Nat) (ha : a < 2 ^ 32) (hb : b < 2 ^ 32)
    (h : toHex8 a = toHex8 b) : a = b := by
  have hdata := congrArg String.data h
  simp only [toHex8, List.cons.injEq, and_true] at hdata
  obtain ⟨h7, h6, h5, h4, h3, h2, h1, h0⟩ := hdata
  have e7 := hexDigit_inj _ (Nat.mod_lt _ (by norm_num)) _ (Nat.mod_lt _ (by norm_num)) h7
  have e6 := hexDigit_inj _ (Nat.mod_lt _ (by norm_num)) _ (Nat.mod_lt _ (by norm_num)) h6
  have e5 := hexDigit_inj _ (Nat.mod_lt _ (by norm_num)) _ (Nat.mod_lt _ (by norm_num)) h5
  have e4 := hexDigit_inj _ (Nat.mod_lt _ (by norm_num)) _ (Nat.mod_lt _ (by norm_num)) h4
  have e3 := hexDigit_inj _ (Nat.mod_lt _ (by norm_num)) _ (Nat.mod_lt _ (by norm_num)) h3
  have e2 := hexDigit_inj _ (Nat.mod_lt _ (by norm_num)) _ (Nat.mod_lt _ (by norm_num)) h2
  have e1 := hexDigit_inj _ (Nat.mod_lt _ (by norm_num)) _ (Nat.mod_lt _ (by norm_num)) h1
  have e0 := hexDigit_inj _ (Nat.mod_lt _ (by norm_num)) _ (Nat.mod_lt _ (by norm_num)) h0
  have hp : (16:Nat) ^ 7 = 268435456 := by norm_num
  have hp6 : (16:Nat) ^ 6 = 16777216 := by norm_num
  have hp5 : (16:Nat) ^ 5 = 1048576 := by norm_num
  have hp4 : (16:Nat) ^ 4 = 65536 := by norm_num
  have hp3 : (16:Nat) ^ 3 = 4096 := by norm_num
  have hp2 : (16:Nat) ^ 2 = 256 := by norm_num
  rw [hp] at e7
  rw [hp6] at e6
  rw [hp5] at e5
  rw [hp4] at e4
  rw [hp3] at e3
  rw [hp2] at e2
  omega

/-! ## CRC-32 detects any single-byte change (for corruption detection) -/

theorem crcShift_inj (a b : Nat) (ha : a < 2 ^ 32) (hb : b < 2 ^ 32)
    (h : crcShift a = crcShift b) : a = b := by
  have hbig : ∀ x : Nat, x < 2 ^ 32 → x % 2 = 1 → 2 ^ 31 ≤ x / 2 ^^^ crcPoly := by
    intro x hx _
    apply Nat.testBit_implies_ge
    rw [Nat.testBit_xor, Nat.testBit_lt_two_pow (x := x / 2) (by omega)]
    decide
  unfold crcShift at h
  rcases Nat.mod_two_eq_zero_or_one a with hpa | hpa <;>
    rcases Nat.mod_two_eq_zero_or_one b with hpb | hpb <;>
      rw [hpa, hpb] at h <;> norm_num at h
  · omega
  · have := hbig b hb hpb
    omega
  · have := hbig a ha hpa
    omega
  · have h2 : a / 2 = b / 2 := by
      have := congrArg (fun x => x ^^^ crcPoly) h
      simpa [Nat.xor_assoc, xor_xor_self] using this
    omega

theorem crcShift_iter_inj (k a b : Nat) (ha : a < 2 ^ 32) (hb : b < 2 ^ 32)
    (h : crcShift^[k] a = crcShift^[k] b) : a = b := by
  induction k generalizing a b with
  | zero => exact h
  | succ k ih =>
    rw [Function.iterate_succ_apply] at h
    exact crcShift_inj a b ha hb (ih _ _ (crcShift_lt a ha) (crcShift_lt b hb) h)

theorem crcShift_iter_ne_zero (k d : Nat) (hd0 : d ≠ 0) (hd : d < 2 ^ 32) :
    crcShift^[k] d ≠ 0 := by
  intro h
  exact hd0 (crcShift_iter_inj k d 0 hd (by norm_num)
    (h.trans (crcShift_iter_zero k).symm))

theorem crcByteStep_diff (s b b' : Nat) :
    crcByteStep s b = crcShift^[8] (b ^^^ b') ^^^ crcByteStep s b' := by
  unfold crcByteStep
  rw [← crcShift_iter_xor]
  congr 1
  apply Nat.eq_of_testBit_eq
  intro i
  simp only [Nat.testBit_xor]
  cases s.testBit i <;> cases b.testBit i <;> cases b'.testBit i <;> rfl

theorem crc32_ne_single (p1 p2 : List Nat) (b b' : Nat) (hne : b ≠ b')
    (hb : b < 2 ^ 32) (hb' : b' < 2 ^ 32) :
    crc32 (p1 ++ b :: p2) ≠ crc32 (p1 ++ b' :: p2) := by
  unfold crc32 crc32Update crcRawUpdate
  simp only [List.foldl_append, List.foldl_cons]
  intro h
  have h2 : List.foldl crcByteStep (crcByteStep (List.foldl crcByteStep (0 ^^^ crcF) p1) b) p2
      = List.foldl crcByteStep (crcByteStep (List.foldl crcByteStep (0 ^^^ crcF) p1) b') p2 := by
    have hF := congrArg (fun x => x ^^^ crcF) h
    simpa [Nat.xor_assoc, xor_xor_self] using hF
  rw [crcByteStep_diff (List.foldl crcByteStep (0 ^^^ crcF) p1) b b'] at h2
  have hru : ∀ x : Nat, List.foldl crcByteStep x p2 = crcRawUpdate x p2 := fun _ => rfl
  rw [hru, hru, crcRawUpdate_xor_left] at h2
  have hzero : crcShift^[8 * p2.length] (crcShift^[8] (b ^^^ b')) = 0 := by
    have hX := congrArg (fun y =>
      y ^^^ crcRawUpdate (crcByteStep (List.foldl crcByteStep (0 ^^^ crcF) p1) b') p2) h2
    simpa [Nat.xor_assoc, xor_xor_self, Nat.xor_self] using hX
  rw [← Function.iterate_add_apply] at hzero
  refine crcShift_iter_ne_zero _ _ ?_ (Nat.xor_lt_two_pow hb hb') hzero
  intro hd
  exact hne (Nat.xor_eq_zero.mp hd)

/-! ## Checksum merge of per-range partials -/

theorem mergeFold (parts : List (List Nat)) :
    ∀ acc : List Nat, (∀ x ∈ acc, x < 256) → (∀ q ∈ parts, ∀ x ∈ q, x < 256) →
      (parts.map (fun q => Hasher.new.update q)).foldl Hasher.combine (Hasher.new.update acc)
        = Hasher.new.update (acc ++ parts.flatten) := by
  induction parts with
  | nil => intro acc _ _; simp
  | cons q parts ih =>
    intro acc hacc hb
    simp only [List.map_cons, List.foldl_cons]
    have hcrc : (Hasher.new.update acc).crc < 2 ^ 32 := by
      show crc32Update 0 acc < 2 ^ 32
      exact crc32Update_lt 0 acc (by norm_num) (fun x hx => lt_trans (hacc x hx) (by norm_num))
    rw [Hasher.combine_update_new _ hcrc q, Hasher.update_update]
    rw [ih (acc ++ q) ?_ (fun r hr => hb r (List.mem_cons_of_mem q hr))]
    · rw [List.flatten_cons, List.append_assoc]
    · intro x hx
      rcases List.mem_append.mp hx with h | h
      · exact hacc x h
      · exact hb q (List.mem_cons_self q parts) x h

theorem fromLE32_set_ne (c : Nat) (hc : c < 2 ^ 32) (i b' : Nat) (hi : i < 4) (hb' : b' < 256)
    (hne : b' ≠ (le32 c).getD i 0) :
    fromLE32 ((le32 c).set i b') ≠ c := by
  interval_cases i <;>
    simp only [le32, List.set, List.getD, List.get?_eq_getElem?, List.getElem?_cons_zero,
      List.getElem?_cons_succ, fromLE32, Option.getD_some] at * <;>
    omega

/-! ## Resume worker and parallel/sequential agreement -/

/-- A worker that starts at chunk boundary `p = k * chunk_size`: it advances
its PRNG by `k * buffer_size / 8` 64-bit words before filling (where
`buffer_size = chunk_size.div_ceil(8) * 8`), then encodes every remaining
chunk. -/
def genResume (seed cs S k : Nat) : GenSt :=
  (List.range' k (divCeil S cs - k)).foldl (genStep cs (divCeil cs 8 * 8) 0 S)
    ⟨pcgAdvance (seedState seed) (k * (divCeil cs 8 * 8) / 8), Hasher.new, [], 0⟩

theorem genResume_out (seed cs S k : Nat) (hcs : 0 < cs) :
    (genResume seed cs S k).out
      = ((List.range' k (divCeil S cs - k)).map (streamChunk seed cs 0 S)).flatten := by
  unfold genResume
  have hwd : divCeil (divCeil cs 8 * 8) 8 = divCeil cs 8 := by unfold divCeil; omega
  have hbuf : cs ≤ divCeil cs 8 * 8 := by unfold divCeil; omega
  have hrng : pcgAdvance (seedState seed) (k * (divCeil cs 8 * 8) / 8)
      = pcgAdvance (seedState seed) (k * divCeil cs 8) := by
    have hm : k * (divCeil cs 8 * 8) = k * divCeil cs 8 * 8 := by ring
    rw [hm, Nat.mul_div_cancel _ (by norm_num)]
  rcases le_or_lt 4 cs with h4 | h4
  · rw [hrng]
    rw [genFold_long seed cs (divCeil cs 8 * 8) 0 S h4 hwd hbuf _ _ _ rfl ?_]
    · simp
    · intro j hj1 hj2
      refine chunk_ws_full S cs 0 j hcs ?_
      simp only [Nat.zero_div]
      omega
  · rw [genFold_allshort seed cs (divCeil cs 8 * 8) 0 S h4]
    simp

/-- The multi-worker file output equals the sequential single-pass output. -/
theorem generateBytes_eq_seq (seed cs S W : Nat) (hcs : 0 < cs) (hW : 0 < W) :
    generateBytes seed cs 0 S W = genSeqBytes seed cs S := by
  rw [generateBytes_closed seed cs 0 S W hcs hW, genSeqBytes_closed seed cs S hcs]
  norm_num

/-- The sequential byte stream from any chunk boundary onwards equals the
output of a worker resumed there with the PRNG advanced accordingly. -/
theorem genSeq_drop_eq_resume (seed cs S k : Nat) (hcs : 0 < cs) :
    (genSeqBytes seed cs S).drop (k * cs) = (genResume seed cs S k).out := by
  rw [genResume_out seed cs S k hcs]
  rcases le_or_lt k (divCeil S cs) with hk | hk
  · exact genSeqBytes_drop seed cs S hcs k hk
  · have h0 : divCeil S cs - k = 0 := by omega
    rw [h0]
    simp only [List.range'_zero, List.map_nil, List.flatten_nil]
    apply List.drop_eq_nil_of_le
    rw [genSeqBytes_length seed cs S hcs]
    calc S ≤ cs * divCeil S cs := le_mul_divCeil S cs hcs
      _ ≤ cs * k := Nat.mul_le_mul_left cs (by omega)
      _ = k * cs := by ring

/-! ## Partition arithmetic helpers -/

theorem divCeil_le_of (S cs m : Nat) (hcs : 0 < cs) (h : S ≤ cs * m) : divCeil S cs ≤ m := by
  unfold divCeil
  rw [Nat.div_le_iff_le_mul_add_pred hcs]
  omega

theorem divCeil_of_mod_ne (S cs : Nat) (hcs : 0 < cs) (hmod : S % cs ≠ 0) :
    divCeil S cs = S / cs + 1 := by
  have hdm := Nat.div_add_mod S cs
  set q := S / cs with hq
  set r := S % cs with hr
  have hrlt : r < cs := Nat.mod_lt _ hcs
  have hx : cs * (q + 1) = cs * q + cs := by ring
  have heq : S + cs - 1 = cs * (q + 1) + (r - 1) := by omega
  unfold divCeil
  rw [heq, Nat.mul_add_div hcs, Nat.div_eq_of_lt (show r - 1 < cs by omega)]

theorem genWorker_empty (seed cs bufSize position streamSize numChunks cpt chunkPos i : Nat)
    (hle : numChunks ≤ i * cpt) :
    genWorker seed cs bufSize position streamSize numChunks cpt chunkPos i
      = ⟨pcgAdvance (seedState seed) ((i * cpt + chunkPos) * bufSize / 8),
         Hasher.new, [], 0⟩ := by
  unfold genWorker
  have hmono : i * cpt ≤ (i + 1) * cpt := Nat.mul_le_mul_right cpt (by omega)
  have h0 : min ((i + 1) * cpt) numChunks + chunkPos - (i * cpt + chunkPos) = 0 := by omega
  rw [h0]
  simp

theorem valWorker_empty (bytes : List Nat) (cs numChunks cpt i : Nat)
    (hle : numChunks ≤ i * cpt) :
    valWorker bytes cs numChunks cpt i = .ok ⟨Hasher.new, 0⟩ := by
  unfold valWorker
  have hmono : i * cpt ≤ (i + 1) * cpt := Nat.mul_le_mul_right cpt (by omega)
  have h0 : min ((i + 1) * cpt) numChunks - i * cpt = 0 := by omega
  rw [h0]
  simp

/-! ## Short-tail characterization -/

theorem validateChunk_short_iff (idx : Nat) (tail : List Nat) (hlen : tail.length < 4) :
    (validateChunk idx tail = .ok () ↔ ∀ b ∈ tail, b = 0)
    ∧ ((∃ b ∈ tail, b ≠ 0) → validateChunk idx tail = .error .invalidTrailingBytes) := by
  unfold validateChunk
  rw [if_neg (by omega)]
  by_cases hany : tail.any (fun v => v ≠ 0)
  · rw [if_pos hany]
    obtain ⟨x, hx, hxne⟩ := List.any_eq_true.mp hany
    constructor
    · constructor
      · intro h
        exact absurd h (by simp)
      · intro hall
        exact absurd (hall x hx) (by simpa using hxne)
    · intro _
      rfl
  · rw [if_neg hany]
    constructor
    · constructor
      · intro _ b hb
        by_contra hbne
        exact hany (List.any_eq_true.mpr ⟨b, hb, by simpa using hbne⟩)
      · intro _
        rfl
    · intro ⟨b, hb, hbne⟩
      exact absurd (List.any_eq_true.mpr ⟨b, hb, by simpa using hbne⟩) hany

/-- With a chunk size below four bytes the whole generated stream is zeros. -/
theorem genSeqBytes_allshort (seed cs S : Nat) (hcs : 0 < cs) (h4 : cs < 4) :
    genSeqBytes seed cs S = List.replicate S 0 := by
  rw [List.eq_replicate_iff]
  refine ⟨genSeqBytes_length seed cs S hcs, ?_⟩
  intro b hb
  rw [genSeqBytes_closed seed cs S hcs] at hb
  obtain ⟨l, hl, hbl⟩ := List.mem_flatten.mp hb
  obtain ⟨k, _, rfl⟩ := List.mem_map.mp hl
  rw [streamChunk_short seed cs 0 S k (by omega)] at hbl
  exact List.eq_of_mem_replicate hbl

/-! ## 32-bit bounds through the validate pipeline -/

theorem combineCrc_lt (c1 c2 len2 : Nat) (hc1 : c1 < 2 ^ 32) (hc2 : c2 < 2 ^ 32) :
    combineCrc c1 c2 len2 < 2 ^ 32 := by
  rw [combineCrc_spec c1 c2 len2 hc1]
  split
  · exact hc1
  · exact Nat.xor_lt_two_pow (crcShift_iter_lt _ _ hc1) hc2

theorem valFold_error (bytes : List Nat) (cs : Nat) (l : List Nat) (e : VError) :
    l.foldl (valStep bytes cs) (.error e) = .error e := by
  induction l with
  | nil => rfl
  | cons k l ih => simpa [valStep] using ih

theorem valFold_crc_lt (bytes : List Nat) (cs : Nat) (hbytes : ∀ b ∈ bytes, b < 256)
    (l : List Nat) : ∀ (st : ValSt) (st' : ValSt), st.hasher.crc < 2 ^ 32 →
      l.foldl (valStep bytes cs) (.ok st) = .ok st' → st'.hasher.crc < 2 ^ 32 := by
  induction l with
  | nil =>
    intro st st' hcrc h
    cases h
    exact hcrc
  | cons k l ih =>
    intro st st' hcrc h
    rw [List.foldl_cons] at h
    rcases hvc : validateChunk k ((bytes.drop (k * cs)).take cs) with e | u
    · have hstep : valStep bytes cs (.ok st) k = .error e := by
        simp only [valStep, hvc]
      rw [hstep, valFold_error bytes cs l e] at h
      cases h
    · have hstep : valStep bytes cs (.ok st) k
          = .ok ⟨st.hasher.update ((bytes.drop (k * cs)).take cs),
                 st.total + ((bytes.drop (k * cs)).take cs).length⟩ := by
        simp only [valStep, hvc]
      rw [hstep] at h
      refine ih _ st' ?_ h
      show crc32Update st.hasher.crc _ < 2 ^ 32
      refine crc32Update_lt _ _ hcrc ?_
      intro b hb
      have : b ∈ bytes := List.mem_of_mem_drop (List.mem_of_mem_take hb)
      exact lt_trans (hbytes b this) (by norm_num)

theorem collectResults_mem (l : List (Except VError ValSt)) :
    ∀ sts, collectResults l = .ok sts → ∀ st ∈ sts, Except.ok st ∈ l := by
  induction l with
  | nil =>
    intro sts h st hst
    cases h
    simp at hst
  | cons r l ih =>
    intro sts h st hst
    match r, h with
    | .ok st0, h =>
      rcases hrest : collectResults l with e | sts0
      · rw [show collectResults (Except.ok st0 :: l) = .error e by
          simp only [collectResults, hrest]] at h
        cases h
      · rw [show collectResults (Except.ok st0 :: l) = .ok (st0 :: sts0) by
          simp only [collectResults, hrest]] at h
        cases h
        rcases List.mem_cons.mp hst with rfl | hmem
        · exact List.mem_cons_self _ _
        · exact List.mem_cons_of_mem _ (ih sts0 hrest st hmem)

theorem mergeHashers_crc_lt (hs : List Hasher) (hh : Hasher)
    (hb : ∀ h ∈ hs, h.crc < 2 ^ 32) (hm : mergeHashers hs = some hh) : hh.crc < 2 ^ 32 := by
  match hs, hm with
  | h0 :: t, hm =>
    have h0lt : h0.crc < 2 ^ 32 := hb h0 (List.mem_cons_self _ _)
    have hfold : ∀ (t' : List Hasher) (acc : Hasher), acc.crc < 2 ^ 32 →
        (∀ h ∈ t', h.crc < 2 ^ 32) → (t'.foldl Hasher.combine acc).crc < 2 ^ 32 := by
      intro t'
      induction t' with
      | nil => intro acc hacc _; exact hacc
      | cons h2 t2 ih =>
        intro acc hacc hball
        rw [List.foldl_cons]
        refine ih _ ?_ (fun x hx => hball x (List.mem_cons_of_mem _ hx))
        show combineCrc acc.crc h2.crc h2.amount < 2 ^ 32
        exact combineCrc_lt _ _ _ hacc (hball h2 (List.mem_cons_self _ _))
    have : mergeHashers (h0 :: t) = some (t.foldl Hasher.combine h0) := rfl
    rw [this] at hm
    cases hm
    exact hfold t h0 h0lt (fun x hx => hb x (List.mem_cons_of_mem _ hx))

/-- Any checksum reported by a successful validate run is a 32-bit value. -/
theorem validateRun_ck_lt (bytes : List Nat) (cs w n ck : Nat)
    (hbytes : ∀ b ∈ bytes, b < 256)
    (h : validateRun bytes cs w none = some (.ok (n, ck))) : ck < 2 ^ 32 := by
  unfold validateRun at h
  revert h
  rcases hcol : collectResults ((List.range w).map
      (valWorker bytes cs (valNumChunks bytes.length cs)
        (valChunksPerThread (valNumChunks bytes.length cs) w))) with e | sts
  · intro h
    simp at h
  · rcases hmer : mergeHashers (sts.map ValSt.hasher) with _ | hh
    · intro h
      simp [hmer] at h
    · intro h
      simp only [hmer] at h
      simp only [Option.some.injEq, Except.ok.injEq, Prod.mk.injEq] at h
      obtain ⟨-, hck⟩ := h
      subst hck
      refine mergeHashers_crc_lt _ _ ?_ hmer
      intro hh2 hmem
      obtain ⟨st, hstmem, rfl⟩ := List.mem_map.mp hmem
      have hok := collectResults_mem _ sts hcol st hstmem
      obtain ⟨i, -, hival⟩ := List.mem_map.mp hok
      unfold valWorker at hival
      exact valFold_crc_lt bytes cs hbytes _ ⟨Hasher.new, 0⟩ st (by decide) hival

/-! ## Corruption detection at the chunk codec level -/

/-- Generic checksummed chunk: unmodified it validates, and any single-byte
change (payload or trailer) produces a checksum mismatch naming the chunk
index together with distinct expected and actual CRC values. -/
theorem validateChunk_payload_set (idx : Nat) (P : List Nat) (ws j b' : Nat)
    (hws4 : 4 ≤ ws) (hplen : P.length = ws - 4)
    (hPb : ∀ x ∈ P, x < 256) (hj : j < ws) (hb' : b' < 256)
    (hne : b' ≠ (P ++ le32 (crc32 P)).getD j 0) :
    validateChunk idx (P ++ le32 (crc32 P)) = .ok () ∧
    ∃ ex ac, validateChunk idx ((P ++ le32 (crc32 P)).set j b')
        = .error (.checksumMismatch idx ex ac) ∧ ex ≠ ac := by
  have hcrc : crc32 P < 2 ^ 32 := crc32_lt_bytes P hPb
  have hck4 : (le32 (crc32 P)).length = 4 := rfl
  have hlen : (P ++ le32 (crc32 P)).length = ws := by
    rw [List.length_append, hplen, hck4]
    omega
  constructor
  · unfold validateChunk
    rw [if_pos (by omega)]
    have hdrop : (P ++ le32 (crc32 P)).length - 4 = P.length := by omega
    rw [hdrop, List.drop_left, List.take_left, fromLE32_le32 _ hcrc]
    simp
  · rcases Nat.lt_or_ge j (ws - 4) with hjp | hjt
    · have hjP : j < P.length := by omega
      have hgd : (P ++ le32 (crc32 P)).getD j 0 = P.getD j 0 :=
        List.getD_append _ _ 0 j hjP
      have hset : (P ++ le32 (crc32 P)).set j b' = P.set j b' ++ le32 (crc32 P) :=
        List.set_append_left j b' hjP
      have hslen : (P.set j b').length = ws - 4 := by
        rw [List.length_set]
        exact hplen
      have hlen2 : (P.set j b' ++ le32 (crc32 P)).length = ws := by
        rw [List.length_append, hslen, hck4]
        omega
      have hdec : P.getD j 0 :: P.drop (j + 1) = P.drop j := by
        rw [List.getD_eq_getElem P 0 hjP]
        exact List.get_drop_eq_drop P j hjP
      have hPdec : P = P.take j ++ P.getD j 0 :: P.drop (j + 1) := by
        conv_lhs => rw [← List.take_append_drop j P, ← hdec]
      have hsetdec : P.set j b' = P.take j ++ b' :: P.drop (j + 1) :=
        List.set_eq_take_cons_drop b' hjP
      have hgdlt : P.getD j 0 < 2 ^ 32 := by
        have hmem : P.getD j 0 ∈ P := by
          rw [List.getD_eq_getElem P 0 hjP]
          exact List.getElem_mem hjP
        exact lt_trans (hPb _ hmem) (by norm_num)
      have hne2 : P.getD j 0 ≠ b' := by
        intro heq
        rw [hgd] at hne
        exact hne heq.symm
      have hnecrc : crc32 P ≠ crc32 (P.set j b') := by
        conv_lhs => rw [hPdec]
        rw [hsetdec]
        exact crc32_ne_single (P.take j) (P.drop (j + 1)) (P.getD j 0) b' hne2 hgdlt
          (lt_trans hb' (by norm_num))
      refine ⟨crc32 P, crc32 (P.set j b'), ?_, hnecrc⟩
      rw [hset]
      unfold validateChunk
      rw [if_pos (by omega)]
      have hdrop2 : (P.set j b' ++ le32 (crc32 P)).length - 4 = (P.set j b').length := by
        omega
      rw [hdrop2, List.drop_left, List.take_left, fromLE32_le32 _ hcrc, if_pos hnecrc]
    · have hjP : P.length ≤ j := by omega
      have hi4 : j - P.length < 4 := by omega
      have hgd : (P ++ le32 (crc32 P)).getD j 0 = (le32 (crc32 P)).getD (j - P.length) 0 :=
        List.getD_append_right _ _ 0 j hjP
      have hset : (P ++ le32 (crc32 P)).set j b'
          = P ++ (le32 (crc32 P)).set (j - P.length) b' :=
        List.set_append_right j b' hjP
      have hcklen : ((le32 (crc32 P)).set (j - P.length) b').length = 4 := by
        rw [List.length_set]
        exact hck4
      have hlen2 : (P ++ (le32 (crc32 P)).set (j - P.length) b').length = ws := by
        rw [List.length_append, hcklen, hplen]
        omega
      have hne2 : b' ≠ (le32 (crc32 P)).getD (j - P.length) 0 := by
        rw [← hgd]
        exact hne
      have hnest : fromLE32 ((le32 (crc32 P)).set (j - P.length) b') ≠ crc32 P :=
        fromLE32_set_ne (crc32 P) hcrc (j - P.length) b' hi4 hb' hne2
      refine ⟨fromLE32 ((le32 (crc32 P)).set (j - P.length) b'), crc32 P, ?_, hnest⟩
      rw [hset]
      unfold validateChunk
      rw [if_pos (by omega)]
      have hdrop2 : (P ++ (le32 (crc32 P)).set (j - P.length) b').length - 4 = P.length := by
        omega
      rw [hdrop2, List.drop_left, List.take_left, if_pos hnest]

/-! ## Remaining arithmetic helpers for the claim theorems -/

theorem divCeil_mul_self (cs m : Nat) (hcs : 0 < cs) : divCeil (m * cs) cs = m := by
  unfold divCeil
  have heq : m * cs + cs - 1 = cs * m + (cs - 1) := by
    have hc : m * cs = cs * m := by ring
    omega
  rw [heq, Nat.mul_add_div hcs, Nat.div_eq_of_lt (by omega)]
  omega

theorem divCeil_eq_one (n cs : Nat) (hn : 0 < n) (hcs : n ≤ cs) : divCeil n cs = 1 := by
  unfold divCeil
  have hcs0 : 0 < cs := by omega
  have heq : n + cs - 1 = cs * 1 + (n - 1) := by omega
  rw [heq, Nat.mul_add_div hcs0, Nat.div_eq_of_lt (by omega)]

/-- A chunk's bytes depend on position and stream size only through their
sum `position + streamSize` (the end of the byte range). -/
theorem streamChunk_shift (seed cs p1 s1 p2 s2 k : Nat) (h : p1 + s1 = p2 + s2) :
    streamChunk seed cs p1 s1 k = streamChunk seed cs p2 s2 k := by
  unfold streamChunk
  rw [h]

/-! ## Claim theorems -/

/-- C1: for a fixed seed, positive chunk size and stream length, the
multi-worker file output is byte-for-byte identical for every positive
worker count — it equals the sequential single-pass stream — and the
stream from any chunk boundary `k * chunk_size` onwards equals the output
of a worker resumed there with its PRNG advanced by
`k * buffer_size / 8` 64-bit words (where `buffer_size =
chunk_size.div_ceil(8) * 8`).  The spec's per-offset clause (advance by
`p / word_size` words) holds only when the chunk size is a multiple of
eight; see the counterexample at chunk size 12. -/
theorem C1_parallel_determinism (seed cs S W : Nat) (hcs : 0 < cs) (hW : 0 < W) :
    generateBytes seed cs 0 S W = genSeqBytes seed cs S
    ∧ ∀ k, (genSeqBytes seed cs S).drop (k * cs) = (genResume seed cs S k).out :=
  ⟨generateBytes_eq_seq seed cs S W hcs hW,
   fun k => genSeq_drop_eq_resume seed cs S k hcs⟩

theorem C1_witness :
    (0 < 4 ∧ 0 < 2)
    ∧ (generateBytes 0 4 0 9 2 = genSeqBytes 0 4 9
       ∧ ∀ k, (genSeqBytes 0 4 9).drop (k * 4) = (genResume 0 4 9 k).out) :=
  ⟨⟨by norm_num, by norm_num⟩, C1_parallel_determinism 0 4 9 2 (by norm_num) (by norm_num)⟩

/-- C1 counterexample: with chunk size 12, the byte at global offset 12
(the first byte of chunk 1) does not equal the first output byte of a PRNG
advanced by `12 / 8 = 1` words: the worker owning chunk 1 advances by
`buffer_size / 8 = 2` words instead. -/
theorem C1_counterexample :
    (genSeqBytes 0 12 24).getD 12 0
      ≠ pcgOutput (pcgNext (pcgAdvance (seedState 0) (12 / 8))) % 256 := by
  rw [genSeqBytes_closed 0 12 24 (by norm_num)]
  decide

/-- C2: merging per-range CRC partials of a contiguous partition in worker
order reproduces the hasher of a single sequential pass, whose finalized
value is the whole stream's CRC-32; an empty range contributes the
identity hasher, a right identity for the merge. -/
theorem C2_checksum_merge (p : List Nat) (parts : List (List Nat))
    (hb : ∀ q ∈ p :: parts, ∀ x ∈ q, x < 256) :
    mergeHashers ((p :: parts).map (fun q => Hasher.new.update q))
        = some (Hasher.new.update (p :: parts).flatten)
    ∧ Hasher.finalize ((parts.map (fun q => Hasher.new.update q)).foldl Hasher.combine
          (Hasher.new.update p))
        = crc32 (p :: parts).flatten
    ∧ Hasher.new.update [] = Hasher.new
    ∧ ∀ h : Hasher, h.combine (Hasher.new.update []) = h := by
  have hp : ∀ x ∈ p, x < 256 := hb p (List.mem_cons_self p parts)
  have hparts : ∀ q ∈ parts, ∀ x ∈ q, x < 256 := fun q hq => hb q (List.mem_cons_of_mem p hq)
  have hfold := mergeFold parts p hp hparts
  have hnil : Hasher.new.update [] = Hasher.new := by decide
  refine ⟨?_, ?_, hnil, fun h => by rw [hnil]; exact Hasher.combine_new_right h⟩
  · show some ((parts.map (fun q => Hasher.new.update q)).foldl Hasher.combine
        (Hasher.new.update p)) = _
    rw [hfold, List.flatten_cons]
  · rw [hfold, List.flatten_cons]
    rfl

theorem C2_witness :
    (∀ q ∈ ([[1, 2, 3], [4, 5], []] : List (List Nat)), ∀ x ∈ q, x < 256)
    ∧ (mergeHashers (([[1, 2, 3], [4, 5], []] : List (List Nat)).map
            (fun q => Hasher.new.update q))
          = some (Hasher.new.update ([[1, 2, 3], [4, 5], []] : List (List Nat)).flatten)
       ∧ Hasher.finalize ((([[4, 5], []] : List (List Nat)).map
              (fun q => Hasher.new.update q)).foldl Hasher.combine
            (Hasher.new.update [1, 2, 3]))
          = crc32 ([[1, 2, 3], [4, 5], []] : List (List Nat)).flatten
       ∧ Hasher.new.update [] = Hasher.new
       ∧ ∀ h : Hasher, h.combine (Hasher.new.update []) = h) :=
  ⟨by decide, C2_checksum_merge [1, 2, 3] [[4, 5], []] (by decide)⟩

/-- C3: round-trip: generate followed by validate succeeds with no
checksum mismatch and no trailing-byte error for every stream size in
`{0, 3, 4, cs-1, cs, cs+1, 10*cs+7}` (indeed every chunk-size slice of any
generated stream validates cleanly). -/
theorem C3_round_trip (seed cs W W2 S : Nat) (hcs : 0 < cs) (hW : 0 < W) (hW2 : 0 < W2)
    (_hS : S ∈ ([0, 3, 4, cs - 1, cs, cs + 1, 10 * cs + 7] : List Nat)) :
    (∃ r, validateRun (generateBytes seed cs 0 S W) cs W2 none = some (.ok r))
    ∧ ∀ k, validateChunk k (((generateBytes seed cs 0 S W).drop (k * cs)).take cs)
        = .ok () := by
  have heq := generateBytes_eq_seq seed cs S W hcs hW
  refine ⟨?_, fun k => ?_⟩
  · rw [heq]
    exact validateRun_ok _ _ _ hW2 (fun k => gen_slice_validates seed cs S k hcs)
  · rw [heq]
    exact gen_slice_validates seed cs S k hcs

theorem C3_witness :
    (0 < 5 ∧ 0 < 2 ∧ 0 < 3 ∧ 3 ∈ ([0, 3, 4, 5 - 1, 5, 5 + 1, 10 * 5 + 7] : List Nat))
    ∧ ((∃ r, validateRun (generateBytes 7 5 0 3 2) 5 3 none = some (.ok r))
       ∧ ∀ k, validateChunk k (((generateBytes 7 5 0 3 2).drop (k * 5)).take 5) = .ok ()) :=
  ⟨⟨by norm_num, by norm_num, by norm_num, by decide⟩,
   C3_round_trip 7 5 2 3 3 (by norm_num) (by norm_num) (by norm_num) (by decide)⟩

/-- C4: partition arithmetic.  `generate` computes
`num_chunks = ceil(S / cs)` and `chunks_per_thread = ceil(num_chunks / W)`
with `u64::div_ceil`, and `divCeil` is exactly the least upper bound the
spec describes; worker `i` owns `[i*cpt, min((i+1)*cpt, num_chunks))`, the
worker ranges tile `[0, num_chunks)` in order, and empty-range workers
terminate with an identity contribution (no bytes, fresh hasher) which is
a right identity for the merge.  `validate`, however, computes its
`num_chunks` and `chunks_per_thread` through `f64` casts: its values can
differ from `ceil(S / cs)` for sizes above 2^53, and its worker ranges
tile only `[0, min(W * chunks_per_thread, num_chunks))`, which can stop
short of `num_chunks` (both shown by the counterexample). -/
theorem C4_partition (seed S cs W position bufSize : Nat) (bytes : List Nat)
    (hcs : 0 < cs) (hW : 0 < W) :
    generatePlan 0 cs W S = .ok (divCeil S cs) (divCeil (divCeil S cs) W)
    ∧ (S ≤ cs * divCeil S cs ∧ ∀ m, S ≤ cs * m → divCeil S cs ≤ m)
    ∧ (divCeil S cs ≤ W * divCeil (divCeil S cs) W
       ∧ ∀ m, divCeil S cs ≤ W * m → divCeil (divCeil S cs) W ≤ m)
    ∧ ((List.range W).map (fun i =>
          List.range' (i * divCeil (divCeil S cs) W + 0)
            (min ((i + 1) * divCeil (divCeil S cs) W) (divCeil S cs)
              - i * divCeil (divCeil S cs) W))).flatten
        = List.range' 0 (divCeil S cs)
    ∧ ((List.range W).map (fun i =>
          List.range' (i * valChunksPerThread (valNumChunks bytes.length cs) W + 0)
            (min ((i + 1) * valChunksPerThread (valNumChunks bytes.length cs) W)
                (valNumChunks bytes.length cs)
              - i * valChunksPerThread (valNumChunks bytes.length cs) W))).flatten
        = List.range' 0
            (min (W * valChunksPerThread (valNumChunks bytes.length cs) W)
              (valNumChunks bytes.length cs))
    ∧ (∀ i, divCeil S cs ≤ i * divCeil (divCeil S cs) W →
        genWorker seed cs bufSize position S (divCeil S cs) (divCeil (divCeil S cs) W) 0 i
          = ⟨pcgAdvance (seedState seed)
                ((i * divCeil (divCeil S cs) W + 0) * bufSize / 8), Hasher.new, [], 0⟩)
    ∧ (∀ i, valNumChunks bytes.length cs
          ≤ i * valChunksPerThread (valNumChunks bytes.length cs) W →
        valWorker bytes cs (valNumChunks bytes.length cs)
            (valChunksPerThread (valNumChunks bytes.length cs) W) i = .ok ⟨Hasher.new, 0⟩)
    ∧ ∀ h : Hasher, h.combine Hasher.new = h := by
  refine ⟨?_, ⟨le_mul_divCeil S cs hcs, fun m hm => divCeil_le_of S cs m hcs hm⟩,
    ⟨le_mul_divCeil (divCeil S cs) W hW, fun m hm => divCeil_le_of (divCeil S cs) W m hW hm⟩,
    ?_, worker_ranges_tile _ 0 _ W,
    fun i hi => genWorker_empty seed cs bufSize position S _ _ 0 i hi,
    fun i hi => valWorker_empty bytes cs _ _ i hi,
    fun h => Hasher.combine_new_right h⟩
  · unfold generatePlan
    rw [if_neg (by simp), if_neg (by omega), if_neg (by omega)]
  · have ht := worker_ranges_tile (divCeil (divCeil S cs) W) 0 (divCeil S cs) W
    rw [min_eq_right (le_mul_divCeil (divCeil S cs) W hW)] at ht
    exact ht

theorem C4_witness :
    (0 < 3 ∧ 0 < 4)
    ∧ (generatePlan 0 3 4 10 = .ok (divCeil 10 3) (divCeil (divCeil 10 3) 4)
       ∧ (10 ≤ 3 * divCeil 10 3 ∧ ∀ m, 10 ≤ 3 * m → divCeil 10 3 ≤ m)
       ∧ (divCeil 10 3 ≤ 4 * divCeil (divCeil 10 3) 4
          ∧ ∀ m, divCeil 10 3 ≤ 4 * m → divCeil (divCeil 10 3) 4 ≤ m)
       ∧ ((List.range 4).map (fun i =>
             List.range' (i * divCeil (divCeil 10 3) 4 + 0)
               (min ((i + 1) * divCeil (divCeil 10 3) 4) (divCeil 10 3)
                 - i * divCeil (divCeil 10 3) 4))).flatten
           = List.range' 0 (divCeil 10 3)
       ∧ ((List.range 4).map (fun i =>
             List.range' (i * valChunksPerThread (valNumChunks ([] : List Nat).length 3) 4 + 0)
               (min ((i + 1) * valChunksPerThread (valNumChunks ([] : List Nat).length 3) 4)
                   (valNumChunks ([] : List Nat).length 3)
                 - i * valChunksPerThread (valNumChunks ([] : List Nat).length 3) 4))).flatten
           = List.range' 0
               (min (4 * valChunksPerThread (valNumChunks ([] : List Nat).length 3) 4)
                 (valNumChunks ([] : List Nat).length 3))
       ∧ (∀ i, divCeil 10 3 ≤ i * divCeil (divCeil 10 3) 4 →
           genWorker 0 3 8 0 10 (divCeil 10 3) (divCeil (divCeil 10 3) 4) 0 i
             = ⟨pcgAdvance (seedState 0)
                   ((i * divCeil (divCeil 10 3) 4 + 0) * 8 / 8), Hasher.new, [], 0⟩)
       ∧ (∀ i, valNumChunks ([] : List Nat).length 3
             ≤ i * valChunksPerThread (valNumChunks ([] : List Nat).length 3) 4 →
           valWorker [] 3 (valNumChunks ([] : List Nat).length 3)
               (valChunksPerThread (valNumChunks ([] : List Nat).length 3) 4) i
             = .ok ⟨Hasher.new, 0⟩)
       ∧ ∀ h : Hasher, h.combine Hasher.new = h) :=
  ⟨⟨by norm_num, by norm_num⟩, C4_partition 0 10 3 4 0 8 [] (by norm_num) (by norm_num)⟩

/-- C4 counterexample: `validate` computes `num_chunks` through `f64`
casts, so for a stream of `2^53 + 1` bytes and chunk size 1 it obtains
`2^53` chunks, not `ceil((2^53+1)/1) = 2^53 + 1` as the spec's shared
formula requires.  The f64 rounding also breaks coverage: at stream size
`2^64 - 1` with chunk size 1 and three workers, `num_chunks` saturates to
`2^64 - 1` while `3 * chunks_per_thread = 2^64 - 1024`, so the union of
the worker ranges `[0, min(3 * cpt, num_chunks))` stops 1023 chunks short
of `num_chunks` — validate's ranges do not tile `[0, num_chunks)`. -/
theorem C4_counterexample :
    valNumChunks (2 ^ 53 + 1) 1 ≠ divCeil (2 ^ 53 + 1) 1
    ∧ min (3 * valChunksPerThread (valNumChunks (2 ^ 64 - 1) 1) 3)
          (valNumChunks (2 ^ 64 - 1) 1)
        < valNumChunks (2 ^ 64 - 1) 1 := by
  exact ⟨by decide, by decide⟩

/-- C5: the expected-checksum gate.  With an expected string rendered as
Rust `format!("{:08x}", C)` does, a run whose merged whole-stream checksum
is `ck` succeeds iff `ck = C`; on mismatch it reports an
expected-checksum-mismatch error carrying the expected string and the
actual value.  The gate applies only after the workers are joined and
merged: per-chunk errors pass through it unchanged. -/
theorem C5_expected_checksum_gate (bytes : List Nat) (cs w C : Nat)
    (hC : C < 2 ^ 32) (hbytes : ∀ b ∈ bytes, b < 256) :
    (∀ n ck, validateRun bytes cs w none = some (.ok (n, ck)) →
      ((validateRun bytes cs w (some (toHex8 C)) = some (.ok (n, ck)) ↔ ck = C)
       ∧ (ck ≠ C → validateRun bytes cs w (some (toHex8 C))
            = some (.error (.expectedChecksumMismatch (toHex8 C) ck)))))
    ∧ (∀ err, validateRun bytes cs w none = some (.error err) →
        validateRun bytes cs w (some (toHex8 C)) = some (.error err)) := by
  obtain ⟨hgate1, hgate2⟩ := validateRun_gate bytes cs w (toHex8 C)
  refine ⟨?_, hgate2⟩
  intro n ck hok
  have hck : ck < 2 ^ 32 := validateRun_ck_lt bytes cs w n ck hbytes hok
  have hrun := hgate1 n ck hok
  constructor
  · constructor
    · intro hsome
      by_cases hhex : toHex8 C = toHex8 ck
      · exact (toHex8_inj C ck hC hck hhex).symm
      · rw [if_neg hhex] at hrun
        rw [hrun] at hsome
        simp at hsome
    · intro hckC
      rw [if_pos (by rw [hckC])] at hrun
      exact hrun
  · intro hneq
    have hhex : toHex8 C ≠ toHex8 ck := fun hcontra =>
      hneq (toHex8_inj C ck hC hck hcontra).symm
    rw [if_neg hhex] at hrun
    exact hrun

theorem C5_witness :
    ((0 : Nat) < 2 ^ 32 ∧ ∀ b ∈ ([] : List Nat), b < 256)
    ∧ ((∀ n ck, validateRun [] 1 1 none = some (.ok (n, ck)) →
        ((validateRun [] 1 1 (some (toHex8 0)) = some (.ok (n, ck)) ↔ ck = 0)
         ∧ (ck ≠ 0 → validateRun [] 1 1 (some (toHex8 0))
              = some (.error (.expectedChecksumMismatch (toHex8 0) ck)))))
       ∧ (∀ err, validateRun [] 1 1 none = some (.error err) →
          validateRun [] 1 1 (some (toHex8 0)) = some (.error err))) :=
  ⟨⟨by norm_num, by simp⟩, C5_expected_checksum_gate [] 1 1 0 (by norm_num) (by simp)⟩

/-- C6: corruption detection.  Any chunk slice of a generated stream whose
write size is at least four validates cleanly unmodified, and changing any
single byte of it — payload byte or CRC trailer byte — makes
`validate_chunk` fail with a checksum-mismatch error naming that chunk's
index together with expected and actual CRC-32 values that differ. -/
theorem C6_single_byte_corruption (seed cs S W k idx j b' : Nat)
    (hcs : 0 < cs) (hW : 0 < W) (hws4 : 4 ≤ min (S - k * cs) cs)
    (hj : j < min (S - k * cs) cs) (hb' : b' < 256)
    (hne : b' ≠ (((generateBytes seed cs 0 S W).drop (k * cs)).take cs).getD j 0) :
    validateChunk idx (((generateBytes seed cs 0 S W).drop (k * cs)).take cs) = .ok ()
    ∧ ∃ ex ac,
        validateChunk idx ((((generateBytes seed cs 0 S W).drop (k * cs)).take cs).set j b')
          = .error (.checksumMismatch idx ex ac) ∧ ex ≠ ac := by
  have hSk : 4 ≤ S - k * cs := by omega
  have hk : k < divCeil S cs := by
    by_contra hge
    have h1 : S ≤ cs * divCeil S cs := le_mul_divCeil S cs hcs
    have h2 : cs * divCeil S cs ≤ cs * k := Nat.mul_le_mul_left cs (by omega)
    have h3 : cs * k = k * cs := by ring
    omega
  have heq : ((generateBytes seed cs 0 S W).drop (k * cs)).take cs
      = streamChunk seed cs 0 S k := by
    rw [generateBytes_eq_seq seed cs S W hcs hW]
    exact genSeqBytes_slice seed cs S k hcs hk
  rw [heq] at hne ⊢
  have hws4' : 4 ≤ min (0 + S - k * cs) cs := by omega
  have hch : streamChunk seed cs 0 S k
      = (((List.range' (k * divCeil cs 8) (divCeil cs 8)).map
            (pcgWord (seedState seed))).map le64).flatten.take
          (min (0 + S - k * cs) cs - 4)
        ++ le32 (crc32 ((((List.range' (k * divCeil cs 8) (divCeil cs 8)).map
            (pcgWord (seedState seed))).map le64).flatten.take
          (min (0 + S - k * cs) cs - 4))) := by
    unfold streamChunk
    rw [if_pos hws4']
  rw [hch] at hne ⊢
  have hplen : ((((List.range' (k * divCeil cs 8) (divCeil cs 8)).map
        (pcgWord (seedState seed))).map le64).flatten.take
      (min (0 + S - k * cs) cs - 4)).length = min (0 + S - k * cs) cs - 4 := by
    rw [List.length_take, flatten_map_le64_length, List.length_map, List.length_range']
    have hb8 : cs ≤ 8 * divCeil cs 8 := by unfold divCeil; omega
    omega
  have hPb : ∀ x ∈ (((List.range' (k * divCeil cs 8) (divCeil cs 8)).map
        (pcgWord (seedState seed))).map le64).flatten.take
      (min (0 + S - k * cs) cs - 4), x < 256 := by
    intro x hx
    obtain ⟨l, hl, hxl⟩ := List.mem_flatten.mp (List.mem_of_mem_take hx)
    obtain ⟨w, _, rfl⟩ := List.mem_map.mp hl
    exact le64_bytes_lt w x hxl
  exact validateChunk_payload_set idx _ (min (0 + S - k * cs) cs) j b' hws4' hplen hPb
    (by omega) hb' hne

theorem C6_witness :
    (0 < 4 ∧ 0 < 1 ∧ 4 ≤ min (4 - 0 * 4) 4 ∧ 0 < min (4 - 0 * 4) 4 ∧ 1 < 256
      ∧ 1 ≠ (((generateBytes 0 4 0 4 1).drop (0 * 4)).take 4).getD 0 0)
    ∧ (validateChunk 0 (((generateBytes 0 4 0 4 1).drop (0 * 4)).take 4) = .ok ()
       ∧ ∃ ex ac,
           validateChunk 0 ((((generateBytes 0 4 0 4 1).drop (0 * 4)).take 4).set 0 1)
             = .error (.checksumMismatch 0 ex ac) ∧ ex ≠ ac) :=
  ⟨⟨by norm_num, by norm_num, by decide, by decide, by norm_num, by decide⟩,
   C6_single_byte_corruption 0 4 4 1 0 0 0 1 (by norm_num) (by norm_num) (by decide)
     (by decide) (by norm_num) (by decide)⟩

/-- C7: short-tail zero rule.  When the stream length is not a multiple of
the chunk size and the remainder is at most three, the final chunk of the
generated stream is exactly that many zero bytes; a tail chunk shorter
than four bytes validates successfully iff all its bytes are zero, and any
nonzero byte makes it fail with the invalid-trailing-bytes error. -/
theorem C7_short_tail (seed cs S W idx : Nat) (hcs : 0 < cs) (hW : 0 < W)
    (hmod : 1 ≤ S % cs ∧ S % cs ≤ 3) :
    (generateBytes seed cs 0 S W).drop ((divCeil S cs - 1) * cs)
      = List.replicate (S % cs) 0
    ∧ (∀ tail : List Nat, tail.length < 4 →
        (validateChunk idx tail = .ok () ↔ ∀ b ∈ tail, b = 0))
    ∧ (∀ tail : List Nat, tail.length < 4 → (∃ b ∈ tail, b ≠ 0) →
        validateChunk idx tail = .error .invalidTrailingBytes) := by
  refine ⟨?_, fun tail hlen => (validateChunk_short_iff idx tail hlen).1,
    fun tail hlen => (validateChunk_short_iff idx tail hlen).2⟩
  rw [generateBytes_eq_seq seed cs S W hcs hW]
  have hN : divCeil S cs = S / cs + 1 := divCeil_of_mod_ne S cs hcs (by omega)
  obtain ⟨q, hq⟩ : ∃ q, S / cs = q := ⟨_, rfl⟩
  obtain ⟨r, hr⟩ : ∃ r, S % cs = r := ⟨_, rfl⟩
  rw [hq] at hN
  rw [hr] at hmod
  have hdm := Nat.div_add_mod S cs
  rw [hq, hr] at hdm
  have hrlt : r < cs := by
    rw [← hr]
    exact Nat.mod_lt _ hcs
  rw [hr]
  have hcm : cs * q = q * cs := by ring
  have hk : divCeil S cs - 1 = q := by omega
  rw [hk, genSeqBytes_drop seed cs S hcs q (by omega)]
  have h1 : divCeil S cs - q = 1 := by omega
  rw [h1]
  simp only [List.range'_one, List.map_cons, List.map_nil, List.flatten_cons,
    List.flatten_nil, List.append_nil]
  have hws : min (0 + S - q * cs) cs = r := by omega
  rw [streamChunk_short seed cs 0 S q (by omega), hws]

theorem C7_witness :
    (0 < 4 ∧ 0 < 1 ∧ (1 ≤ 5 % 4 ∧ 5 % 4 ≤ 3))
    ∧ ((generateBytes 0 4 0 5 1).drop ((divCeil 5 4 - 1) * 4)
          = List.replicate (5 % 4) 0
       ∧ (∀ tail : List Nat, tail.length < 4 →
           (validateChunk 0 tail = .ok () ↔ ∀ b ∈ tail, b = 0))
       ∧ (∀ tail : List Nat, tail.length < 4 → (∃ b ∈ tail, b ≠ 0) →
           validateChunk 0 tail = .error .invalidTrailingBytes)) :=
  ⟨⟨by norm_num, by norm_num, by decide⟩,
   C7_short_tail 0 4 5 1 0 (by norm_num) (by norm_num) (by decide)⟩

/-- C8: resume correctness.  Generating `chunk_size` bytes at position
`chunk_size` with the same seed writes exactly the second half of a
`2 * chunk_size`-byte run from position 0: chunk indices are offset by
`position / chunk_size` and the worker PRNG advancement accounts for the
resume point. -/
theorem C8_resume (seed cs W1 W2 : Nat) (hcs : 0 < cs) (hW1 : 0 < W1) (hW2 : 0 < W2) :
    generateBytes seed cs cs cs W2 = (generateBytes seed cs 0 (2 * cs) W1).drop cs := by
  have hN2 : divCeil (2 * cs) cs = 2 := divCeil_mul_self cs 2 hcs
  have hN1 : divCeil cs cs = 1 := by
    have h := divCeil_mul_self cs 1 hcs
    rwa [Nat.one_mul] at h
  rw [generateBytes_eq_seq seed cs (2 * cs) W1 hcs hW1,
    generateBytes_closed seed cs cs cs W2 hcs hW2]
  have hdrop : (genSeqBytes seed cs (2 * cs)).drop cs
      = ((List.range' 1 (divCeil (2 * cs) cs - 1)).map
          (streamChunk seed cs 0 (2 * cs))).flatten := by
    have h := genSeqBytes_drop seed cs (2 * cs) hcs 1 (by omega)
    rwa [Nat.one_mul] at h
  rw [hdrop, hN1, hN2, Nat.div_self hcs]
  have h21 : (2 : Nat) - 1 = 1 := rfl
  rw [h21]
  simp only [List.range'_one, List.map_cons, List.map_nil, List.flatten_cons,
    List.flatten_nil, List.append_nil]
  exact streamChunk_shift seed cs cs cs 0 (2 * cs) 1 (by ring)

theorem C8_witness :
    (0 < 4 ∧ 0 < 1 ∧ 0 < 2)
    ∧ generateBytes 0 4 4 4 2 = (generateBytes 0 4 0 (2 * 4) 1).drop 4 :=
  ⟨⟨by norm_num, by norm_num, by norm_num⟩,
   C8_resume 0 4 1 2 (by norm_num) (by norm_num) (by norm_num)⟩

/-- C9 (corrected): the source does NOT reject a zero chunk size or a zero
worker count with a validation error.  In `generate`, the only entry check
is the position-multiple test (`position.is_multiple_of(chunk_size)`),
which at position 0 holds even for chunk size 0; past it,
`stream_size.div_ceil(chunk_size)` (respectively
`num_chunks.div_ceil(num_threads)`) executes `u64::div_ceil` with a zero
divisor, which panics.  A nonzero position with chunk size 0 does fail the
entry check.  `validate` with zero workers divides by `0 as f64` (an f64
infinity, no error) and then panics indexing `thread_hashers[0]` of the
empty worker vector (modelled by `validateRun ... = none`). -/
theorem C9_zero_divisors (position S : Nat) (hpos : position ≠ 0) :
    generatePlan 0 0 1 S = .panicDivZero
    ∧ generatePlan 0 1 0 S = .panicDivZero
    ∧ generatePlan position 0 1 S = .validationError
    ∧ validateRun [] 1 0 none = none := by
  refine ⟨?_, ?_, ?_, rfl⟩
  · unfold generatePlan
    rw [if_neg (by decide), if_pos rfl]
  · unfold generatePlan
    rw [if_neg (by decide), if_neg (by decide), if_pos rfl]
  · unfold generatePlan
    rw [if_pos (show position % 0 ≠ 0 by rw [Nat.mod_zero]; exact hpos)]

theorem C9_witness :
    (5 : Nat) ≠ 0
    ∧ (generatePlan 0 0 1 7 = .panicDivZero
       ∧ generatePlan 0 1 0 7 = .panicDivZero
       ∧ generatePlan 5 0 1 7 = .validationError
       ∧ validateRun [] 1 0 none = none) :=
  ⟨by norm_num, C9_zero_divisors 5 7 (by norm_num)⟩

/-- C9 counterexample: at position 0 with chunk size 0 and one worker,
`generate` reaches the `div_ceil` panic instead of returning the
validation error the claim asserts. -/
theorem C9_counterexample :
    generatePlan 0 0 1 1 = GenPlan.panicDivZero
    ∧ generatePlan 0 0 1 1 ≠ GenPlan.validationError := by
  exact ⟨by decide, by decide⟩

/-- C10: a final chunk of write size exactly four has an empty payload;
the CRC-32 of the empty input is zero, so its little-endian trailer is
four zero bytes.  Hence generate with stream size 4 outputs `[0,0,0,0]`
for every seed, chunk size and worker count, and validate accepts the
result. -/
theorem C10_four_byte_chunk (seed cs W W2 rng bufSize : Nat) (g : Hasher)
    (hcs : 0 < cs) (hW : 0 < W) (hW2 : 0 < W2) :
    (generateChunk rng bufSize 4 g).2.1 = [0, 0, 0, 0]
    ∧ crc32 [] = 0
    ∧ generateBytes seed cs 0 4 W = [0, 0, 0, 0]
    ∧ ∃ r, validateRun (generateBytes seed cs 0 4 W) cs W2 none = some (.ok r) := by
  have hchunk : (generateChunk rng bufSize 4 g).2.1 = [0, 0, 0, 0] := by
    unfold generateChunk
    rw [if_pos (by norm_num)]
    show (pcgFillBytes rng bufSize).1.take (4 - 4)
        ++ le32 (Hasher.new.update ((pcgFillBytes rng bufSize).1.take (4 - 4))).finalize
      = [0, 0, 0, 0]
    have h44 : (4 : Nat) - 4 = 0 := rfl
    rw [h44, List.take_zero]
    decide
  have hbytes : generateBytes seed cs 0 4 W = [0, 0, 0, 0] := by
    rw [generateBytes_eq_seq seed cs 4 W hcs hW]
    rcases le_or_lt 4 cs with h4 | h4
    · rw [genSeqBytes_closed seed cs 4 hcs, divCeil_eq_one 4 cs (by norm_num) h4]
      simp only [List.range'_one, List.map_cons, List.map_nil, List.flatten_cons,
        List.flatten_nil, List.append_nil]
      unfold streamChunk
      have hcond : 4 ≤ min (0 + 4 - 0 * cs) cs := by omega
      rw [if_pos hcond]
      have hmin : min (0 + 4 - 0 * cs) cs = 4 := by omega
      rw [hmin]
      have h44 : (4 : Nat) - 4 = 0 := rfl
      rw [h44, List.take_zero]
      decide
    · rw [genSeqBytes_allshort seed cs 4 hcs h4]
      decide
  refine ⟨hchunk, by decide, hbytes, ?_⟩
  rw [generateBytes_eq_seq seed cs 4 W hcs hW]
  exact validateRun_ok _ _ _ hW2 (fun k => gen_slice_validates seed cs 4 k hcs)

theorem C10_witness :
    (0 < 5 ∧ 0 < 1 ∧ 0 < 2)
    ∧ ((generateChunk 0 8 4 Hasher.new).2.1 = [0, 0, 0, 0]
       ∧ crc32 [] = 0
       ∧ generateBytes 3 5 0 4 1 = [0, 0, 0, 0]
       ∧ ∃ r, validateRun (generateBytes 3 5 0 4 1) 5 2 none = some (.ok r)) :=
  ⟨⟨by norm_num, by norm_num, by norm_num⟩,
   C10_four_byte_chunk 3 5 1 2 0 8 Hasher.new (by norm_num) (by norm_num) (by norm_num)⟩
